import Mathlib

/-!
Verification of the flag-mining core of `src/main.rs` (the `man_help` tool):

* `fetch_raw_help` — two-phase help-text acquisition (`--help`, then `man`)
  with the dash-count acceptance heuristic;
* `fetch_flags` — the regex-based flag extractor built on
  `(?m)^\s+(?:(?P<short>-[a-zA-Z0-9?])(?:,?\s+(?P<long>--[a-zA-Z0-9\-_]+))?|(?P<long_only>--[a-zA-Z0-9\-_]+))\s+(?P<desc>.+)$`;
* `App` — the selection model (cursor movement, toggling, language switch).

Process spawning and timeouts are effectful; the results of
`run_with_timeout` for the two phases enter the model as explicit
`Option String` parameters, and `App::toggle_language`'s internal call to
`fetch_flags` enters as an explicit `Except` parameter.  Strings are
modelled as `List Char` during scanning; Rust's `desc.len()` is a UTF-8
byte count and is modelled as such (`utf8Len`).  Alongside the embedding
of the code, `specTail`/`specGroup`/`specCore`/`specLineFlag` formalise
the specification's per-line flag grammar from its own words, for
comparison with the code's scanner.
-/

set_option maxRecDepth 4000

namespace ManHelp

/-- Rust's `\s` character class and `char::is_whitespace`: the Unicode
`White_Space` set. -/
def isWS (c : Char) : Bool :=
  c == ' ' || c == '\t' || c == '\n' || c == '\u000b' || c == '\u000c' || c == '\r'
  || c == '\u0085' || c == '\u00a0' || c == '\u1680'
  || ('\u2000' ≤ c && c ≤ '\u200a')
  || c == '\u2028' || c == '\u2029' || c == '\u202f' || c == '\u205f' || c == '\u3000'

/-- The character class `[a-zA-Z0-9?]` of the regex's short-option token. -/
def isShortTokenChar (c : Char) : Bool :=
  ('a' ≤ c && c ≤ 'z') || ('A' ≤ c && c ≤ 'Z') || ('0' ≤ c && c ≤ '9') || c == '?'

/-- The character class `[a-zA-Z0-9\-_]` of the regex's long-option token. -/
def isLongTokenChar (c : Char) : Bool :=
  ('a' ≤ c && c ≤ 'z') || ('A' ≤ c && c ≤ 'Z') || ('0' ≤ c && c ≤ '9')
  || c == '-' || c == '_'

/-- Rust `str::trim`: remove whitespace from both ends. -/
def trimWS (l : List Char) : List Char :=
  ((l.dropWhile isWS).reverse.dropWhile isWS).reverse

/-- Rust `char::len_utf8`: the byte length of the character's UTF-8
encoding. -/
def len_utf8 (c : Char) : Nat :=
  if c.val < 0x80 then 1
  else if c.val < 0x800 then 2
  else if c.val < 0x10000 then 3
  else 4

/-- Rust `str::len` of the string holding the given characters: the total
UTF-8 byte length.  The source's `desc.len() < 2` check counts bytes, not
characters. -/
def utf8Len : List Char → Nat
  | [] => 0
  | c :: rest => len_utf8 c + utf8Len rest

/-- Rust `text.matches(pat).count()` for a two-character pattern `[a, b]`:
the number of non-overlapping occurrences, scanning left to right. -/
def countPair (a b : Char) : List Char → Nat
  | x :: y :: rest =>
    if x = a ∧ y = b then countPair a b rest + 1 else countPair a b (y :: rest)
  | _ => 0

/-- The named capture groups of one regex match: `short` (with its dash),
`long`/`long_only` (with its dashes), and the raw `desc` text. -/
structure Caps where
  short : Option (List Char)
  long : Option (List Char)
  descRaw : List Char
deriving DecidableEq, Repr

/-- The trailing `\s+(?P<desc>.+)$` of the regex, matched at suffix `s` of the
haystack with the regex engine's greedy/backtracking semantics (note `\s`
matches `'\n'` but `.` does not, and with `(?m)` the `$` matches before any
`'\n'`).  Returns the `desc` capture and the unconsumed suffix.  When the
entire suffix is whitespace, the greedy `\s+` gives back just enough for
`.+` to match: the description becomes the last whitespace character that
is not a newline (provided at least one whitespace character precedes it);
such matches survive only until the description length check. -/
def matchTail (s : List Char) : Option (List Char × List Char) :=
  if (s.takeWhile isWS).isEmpty then none
  else
    match s.dropWhile isWS with
    | _ :: _ =>
      some ((s.dropWhile isWS).takeWhile (fun c => ¬ c = '\n'),
            (s.dropWhile isWS).dropWhile (fun c => ¬ c = '\n'))
    | [] =>
      match (s.takeWhile isWS).reverse.dropWhile (fun c => c = '\n') with
      | x :: _ :: _ =>
        some ([x], ((s.takeWhile isWS).reverse.takeWhile (fun c => c = '\n')).reverse)
      | _ => none

/-- The optional `(?:,?\s+(?P<long>--[a-zA-Z0-9\-_]+))?` group followed by the
tail, attempted after a short token `-c` with remaining input `v'`.  A comma
is consumed when present (retrying without it always fails, since `\s+`
cannot match the comma). -/
def stripComma (v' : List Char) : List Char :=
  if v'.head? = some ',' then v'.tail else v'

def groupAttempt (c : Char) (v' : List Char) : Option (Caps × List Char) :=
  if ((stripComma v').takeWhile isWS).isEmpty then none
  else
    match (stripComma v').dropWhile isWS with
    | a :: b :: v3 =>
      if a = '-' ∧ b = '-' then
        if (v3.takeWhile isLongTokenChar).isEmpty then none
        else
          (matchTail (v3.dropWhile isLongTokenChar)).map
            (fun p =>
              (⟨some ['-', c], some ('-' :: '-' :: v3.takeWhile isLongTokenChar), p.1⟩, p.2))
      else none
    | _ => none

/-- The `(?P<long_only>--[a-zA-Z0-9\-_]+)` alternative followed by the tail,
with remaining input `v'` after the two dashes. -/
def longOnly (v' : List Char) : Option (Caps × List Char) :=
  if (v'.takeWhile isLongTokenChar).isEmpty then none
  else
    (matchTail (v'.dropWhile isLongTokenChar)).map
      (fun p => (⟨none, some ('-' :: '-' :: v'.takeWhile isLongTokenChar), p.1⟩, p.2))

/-- The token alternation of the regex and everything after it, matched at
`v` (the input just after the leading `\s+`).  The short alternative is
preferred; within it the optional long group is preferred, and on its
failure the engine backtracks to a short-only match. -/
def matchCore (v : List Char) : Option (Caps × List Char) :=
  match v with
  | c0 :: c :: v' =>
    if c0 = '-' then
      if isShortTokenChar c then
        match groupAttempt c v' with
        | some res => some res
        | none =>
          (matchTail v').map (fun p => (⟨some ['-', c], none, p.1⟩, p.2))
      else if c = '-' then longOnly v'
      else none
    else none
  | _ => none

/-- One attempted match of the whole regex at suffix `s` of the haystack
(which must be a line-start position, the only place `^` matches). -/
def matchAt (s : List Char) : Option (Caps × List Char) :=
  if (s.takeWhile isWS).isEmpty then none
  else matchCore (s.dropWhile isWS)

/-- A discoverable command-line option (`struct Flag` in the source). -/
structure Flag where
  short : Option String
  long : Option String
  desc : String
  selected : Bool
deriving DecidableEq, Repr

/-- `s.starts_with('-')` on an optional capture; absent captures pass. -/
def shortOk : Option (List Char) → Bool
  | some s => s.head? == some '-'
  | none => true

/-- `l.starts_with("--")` on an optional capture; absent captures pass. -/
def longOk : Option (List Char) → Bool
  | some ('-' :: '-' :: _) => true
  | some _ => false
  | none => true

/-- The per-capture processing in the body of `fetch_flags`'s loop: trim the
description, then apply the rejection rules (`short` must start with a dash,
`long` with a double dash, trimmed description at least 2 bytes long),
producing an unselected `Flag` on acceptance. -/
def acceptCap (cap : Caps) : Option Flag :=
  if cap.short.isSome || cap.long.isSome then
    if !shortOk cap.short then none
    else if !longOk cap.long then none
    else if utf8Len (trimWS cap.descRaw) < 2 then none
    else
      some { short := cap.short.map List.asString,
             long := cap.long.map List.asString,
             desc := (trimWS cap.descRaw).asString,
             selected := false }
  else none

/-- One step of `captures_iter` over the haystack, parametrised by the
continuation `go`: successive non-overlapping leftmost matches.  `atStart`
records whether the current position is a line start (position 0, or just
after `'\n'`); the regex can only match there.  On a match the scan resumes
at the match end, otherwise it advances one character. -/
def scanStep (go : List Char → Bool → List Flag) : List Char → Bool → List Flag
  | [], _ => []
  | c :: rest, atStart =>
    if atStart then
      match matchAt (c :: rest) with
      | some (cap, r) =>
        match acceptCap cap with
        | some f => f :: go r false
        | none => go r false
      | none => go rest (c = '\n')
    else go rest (c = '\n')

/-- The fuelled scan: one `scanStep` per unit of fuel.  The fuel is
irrelevant once it exceeds the input length, since every step consumes at
least one character. -/
def scanF : Nat → List Char → Bool → List Flag
  | 0 => fun _ _ => []
  | fuel + 1 => scanStep (scanF fuel)

/-- The pure extraction part of `fetch_flags`: all flags mined from the raw
text by the regex scan. -/
def parseFlags (text : String) : List Flag :=
  scanF (text.toList.length + 1) text.toList true

/-- The error kinds of the acquisition and extraction layers. -/
inductive FetchError where
  | commandFailed
  | timeout
  | noHelp
  | noFlagsFound
deriving DecidableEq, Repr

/-- The tail of `fetch_flags` after text acquisition: fail with
`NoFlagsFound` when the scan produced nothing. -/
def fetch_flags_from_text (text : String) : Except FetchError (List Flag) :=
  let flags := parseFlags text
  if flags.isEmpty then .error .noFlagsFound else .ok flags

/-- The acceptance heuristic of `fetch_raw_help`:
`text.matches(" -").count() >= 3 || text.matches("\n-").count() >= 3`. -/
def helpHeuristic (text : String) : Bool :=
  decide (3 ≤ countPair ' ' '-' text.toList)
  || decide (3 ≤ countPair '\n' '-' text.toList)

/-- The manual-page phase of `fetch_raw_help`: return whatever
`run_with_timeout` on `man <cmd>` produced, or fail with `NoHelpAvailable`. -/
def manFallback (manRes : Option String) : Except FetchError String :=
  match manRes with
  | some text => .ok text
  | none => .error .noHelp

/-- `fetch_raw_help`, with the effectful `run_with_timeout` results for the
`--help` phase and the `man` phase passed in as parameters (`none` models
`Err`: timeout, non-zero exit, or spawn failure). -/
def fetch_raw_help_model (helpRes manRes : Option String) : Except FetchError String :=
  match helpRes with
  | some text => if helpHeuristic text then .ok text else manFallback manRes
  | none => manFallback manRes

/-- `fetch_flags` end to end: acquisition then extraction. -/
def fetch_flags_model (helpRes manRes : Option String) : Except FetchError (List Flag) :=
  (fetch_raw_help_model helpRes manRes).bind fetch_flags_from_text

/-- `enum Language` of the source. -/
inductive Language where
  | System
  | English
deriving DecidableEq, Repr

/-- `enum ExitAction` of the source. -/
inductive ExitAction where
  | Execute
  | Print
  | Cancel
deriving DecidableEq, Repr

/-- The language flip at the top of `App::toggle_language`. -/
def Language.toggle : Language → Language
  | .System => .English
  | .English => .System

/-- `struct App`: the selection-model state.  `cursor` models
`list_state.selected()`. -/
structure App where
  target_cmd : String
  flags : List Flag
  cursor : Option Nat
  should_quit : Bool
  exit_action : ExitAction
  current_lang : Language
deriving DecidableEq, Repr

/-- `App::new`. -/
def App.new (target_cmd : String) (flags : List Flag) : App :=
  { target_cmd := target_cmd
    flags := flags
    cursor := if flags.isEmpty then none else some 0
    should_quit := false
    exit_action := .Cancel
    current_lang := .System }

/-- `App::next`. -/
def App.next (a : App) : App :=
  if a.flags.isEmpty then a
  else
    let i := match a.cursor with
      | some i => if a.flags.length - 1 ≤ i then 0 else i + 1
      | none => 0
    { a with cursor := some i }

/-- `App::previous`. -/
def App.previous (a : App) : App :=
  if a.flags.isEmpty then a
  else
    let i := match a.cursor with
      | some i => if i = 0 then a.flags.length - 1 else i - 1
      | none => 0
    { a with cursor := some i }

/-- `App::toggle_selection`. -/
def App.toggle_selection (a : App) : App :=
  match a.cursor with
  | some i =>
    match a.flags.get? i with
    | some f => { a with flags := a.flags.set i { f with selected := !f.selected } }
    | none => a
  | none => a

/-- `Flag::as_arg`: the canonical argument string — the long form when
present, else the short form, else empty. -/
def Flag.as_arg (f : Flag) : String :=
  match f.long with
  | some l => l
  | none => f.short.getD ""

/-- `App::get_selected_args`. -/
def App.get_selected_args (a : App) : List String :=
  (a.flags.filter (fun f => f.selected)).map Flag.as_arg

/-- `App::build_preview_string`. -/
def App.build_preview_string (a : App) : String :=
  let args := a.get_selected_args
  if args.isEmpty then a.target_cmd
  else a.target_cmd ++ " " ++ String.intercalate " " args

/-- `App::toggle_language`, with the result of its internal
`fetch_flags(&self.target_cmd, new_lang)` call passed in explicitly. -/
def App.toggle_language (a : App) (fetchResult : Except FetchError (List Flag)) : App :=
  let new_lang := a.current_lang.toggle
  let selected_args := a.get_selected_args
  match fetchResult with
  | .ok new_flags =>
    let new_flags := new_flags.map (fun f =>
      if selected_args.contains f.as_arg then { f with selected := true } else f)
    let a1 := { a with flags := new_flags, current_lang := new_lang }
    match a1.cursor with
    | some i => if new_flags.length ≤ i then { a1 with cursor := some 0 } else a1
    | none => a1
  | .error _ => a

/-- Split a character list into its lines (separator `'\n'`, which belongs
to no line; the list of lines is never empty). -/
def splitLines : List Char → List (List Char)
  | [] => [[]]
  | c :: rest =>
    match splitLines rest with
    | l :: ls => if c = '\n' then [] :: l :: ls else (c :: l) :: ls
    | [] => [[]]

/-- The code's regex applied to one line in isolation — a device for the
per-line analysis of the scanner, not the specification's grammar. -/
def codeLineFlag (line : List Char) : Option Flag :=
  match matchAt line with
  | some (cap, _) => acceptCap cap
  | none => none

/-- Modelled from the spec: the "then whitespace; then the remainder of the
line as description" tail of the flag-line grammar — at least one whitespace
character, then whatever is left of the line is the description candidate
(the separate length check may still reject it). -/
def specTail (s : List Char) : Option (List Char) :=
  if (s.takeWhile isWS).isEmpty then none
  else some (s.dropWhile isWS)

/-- Modelled from the spec: the optional `,? +--[A-Za-z0-9\-_]+` of the
flag-line grammar — an optional comma, one or more spaces (the character
`' '` itself, not arbitrary whitespace), and a long token — attempted after
a short token `-c` with remaining input `v'`, followed by the tail. -/
def specGroup (c : Char) (v' : List Char) : Option Caps :=
  if ((stripComma v').takeWhile (fun x => x = ' ')).isEmpty then none
  else
    match (stripComma v').dropWhile (fun x => x = ' ') with
    | a :: b :: v3 =>
      if a = '-' ∧ b = '-' then
        if (v3.takeWhile isLongTokenChar).isEmpty then none
        else
          (specTail (v3.dropWhile isLongTokenChar)).map
            (fun d =>
              ⟨some ['-', c], some ('-' :: '-' :: v3.takeWhile isLongTokenChar), d⟩)
      else none
    | _ => none

/-- Modelled from the spec: the token alternation of the flag-line grammar
after the leading whitespace — either a short token `-[A-Za-z0-9?]`,
optionally followed by `,? +` and a long token, or a bare long token
`--[A-Za-z0-9\-_]+`; then the tail. -/
def specCore (v : List Char) : Option Caps :=
  match v with
  | c0 :: c :: v' =>
    if c0 = '-' then
      if isShortTokenChar c then
        match specGroup c v' with
        | some cap => some cap
        | none => (specTail v').map (fun d => ⟨some ['-', c], none, d⟩)
      else if c = '-' then
        if (v'.takeWhile isLongTokenChar).isEmpty then none
        else
          (specTail (v'.dropWhile isLongTokenChar)).map
            (fun d => ⟨none, some ('-' :: '-' :: v'.takeWhile isLongTokenChar), d⟩)
      else none
    else none
  | _ => none

/-- Modelled from the spec: the flag yielded by one line under the spec's
flag-line grammar ("leading whitespace; then either `-[A-Za-z0-9?]`
optionally followed by `,? +--[A-Za-z0-9\-_]+`, or a bare
`--[A-Za-z0-9\-_]+`; then whitespace; then the remainder of the line as
description"), with the rejection rules applied to the captures. -/
def specLineFlag (line : List Char) : Option Flag :=
  if (line.takeWhile isWS).isEmpty then none
  else
    match specCore (line.dropWhile isWS) with
    | some cap => acceptCap cap
    | none => none

/-- Modelled from the spec: extraction as the claim describes it — each line
of the raw text yields a flag exactly when it matches the flag-line grammar,
in line order. -/
def specPerLineFlags (text : String) : List Flag :=
  (splitLines text.toList).filterMap specLineFlag

/-- Every whitespace character of the text is a plain space or a newline —
no tabs and no exotic Unicode spaces.  Within each line of such a text the
regex's `\s` runs and the grammar's space runs coincide. -/
def plainSpaces (l : List Char) : Bool :=
  l.all (fun c => !isWS c || c = ' ' || c = '\n')

/-- A line that looks like a flag line but carries no description: optional
leading whitespace, then a short token (with optional comma), a
short+long pair, or a long token, followed by nothing but whitespace to the
end of the line.  On such a line the regex's `\s+` runs on past the line
break and steals text from the next line.  `v` is the line after its
leading whitespace. -/
def badCore (v : List Char) : Bool :=
  match v with
  | c0 :: c :: v' =>
    if c0 = '-' then
      if isShortTokenChar c then
        if (stripComma v').all isWS then true
        else
          match (stripComma v').dropWhile isWS with
          | a :: b :: v3 =>
            if a = '-' ∧ b = '-' then
              !(v3.takeWhile isLongTokenChar).isEmpty
                && (v3.dropWhile isLongTokenChar).all isWS
            else false
          | _ => false
      else if c = '-' then
        !(v'.takeWhile isLongTokenChar).isEmpty
          && (v'.dropWhile isLongTokenChar).all isWS
      else false
    else false
  | _ => false

/-- A line on which the scanner cannot interact with neighbouring lines: it
does not begin with a dash in column 0 (such a line can be captured from the
previous line's trailing whitespace) and it is not a description-less token
line (`badCore`). -/
def goodLine (l : List Char) : Bool :=
  !(l.head? == some '-') && !(badCore (l.dropWhile isWS))

/-- Every line of the text is `goodLine`. -/
def goodLines (l : List Char) : Bool :=
  (splitLines l).all goodLine

/-- The two flags of the spec's end-to-end example. -/
def demoFlags : List Flag :=
  [⟨some "-v", some "--verbose", "Enable verbose output", false⟩,
   ⟨none, some "--dry-run", "Do not execute anything", false⟩]

/-- The help text of the spec's round-trip scenario: language B wording for
the same options. -/
def demoHelpTextB : String :=
  "  -v, --verbose     Ausfuehrliche Ausgabe\n      --dry-run     Nichts ausfuehren"

/-- A selection-model state with the `--dry-run` flag selected. -/
def demoAppSel : App :=
  (App.new "cp" demoFlags).next.toggle_selection

/-- The two flags as extracted from the language-B help text. -/
def demoFlagsB : List Flag :=
  [⟨some "-v", some "--verbose", "Ausfuehrliche Ausgabe", false⟩,
   ⟨none, some "--dry-run", "Nichts ausfuehren", false⟩]

/-- The help text of the spec's end-to-end example. -/
def demoHelpText : String :=
  "    -v, --verbose     Enable verbose output\n        --dry-run     Do not execute anything"

/-! ### Basic facts about the capture processing and the scan -/

theorem acceptCap_selected {cap : Caps} {f : Flag} (h : acceptCap cap = some f) :
    f.selected = false := by
  simp only [acceptCap] at h
  split at h
  · split at h
    · exact absurd h (by simp)
    · split at h
      · exact absurd h (by simp)
      · split at h
        · exact absurd h (by simp)
        · cases h; rfl
  · exact absurd h (by simp)

theorem acceptCap_token {cap : Caps} {f : Flag} (h : acceptCap cap = some f) :
    f.short.isSome = true ∨ f.long.isSome = true := by
  simp only [acceptCap] at h
  split at h
  case isTrue hsome =>
    split at h
    · exact absurd h (by simp)
    · split at h
      · exact absurd h (by simp)
      · split at h
        · exact absurd h (by simp)
        · cases h
          rcases Bool.or_eq_true_iff.mp hsome with h1 | h1
          · exact Or.inl (by simpa using h1)
          · exact Or.inr (by simpa using h1)
  · exact absurd h (by simp)

theorem acceptCap_desc {cap : Caps} {f : Flag} (h : acceptCap cap = some f) :
    f.desc = (trimWS cap.descRaw).asString ∧ 2 ≤ utf8Len f.desc.toList := by
  simp only [acceptCap] at h
  split at h
  · split at h
    · exact absurd h (by simp)
    · split at h
      · exact absurd h (by simp)
      · split at h
        · exact absurd h (by simp)
        case isFalse hlen =>
          cases h
          refine ⟨rfl, ?_⟩
          show 2 ≤ utf8Len (trimWS cap.descRaw).asString.toList
          have : (trimWS cap.descRaw).asString.toList = trimWS cap.descRaw := rfl
          rw [this]
          omega
  · exact absurd h (by simp)

theorem acceptCap_short_desc {cap : Caps} (h : utf8Len (trimWS cap.descRaw) < 2) :
    acceptCap cap = none := by
  simp only [acceptCap]
  repeat' split
  all_goals rfl

/-- Every flag the scan produces was emitted by `acceptCap` on some match. -/
theorem scanF_mem {fuel : Nat} {s : List Char} {b : Bool} {f : Flag}
    (h : f ∈ scanF fuel s b) : ∃ cap, acceptCap cap = some f := by
  induction fuel generalizing s b with
  | zero => simp [scanF] at h
  | succ n ih =>
    rw [show scanF (n + 1) = scanStep (scanF n) from rfl] at h
    cases s with
    | nil => simp [scanStep] at h
    | cons c rest =>
      simp only [scanStep] at h
      split at h
      · split at h
        next cap r heq =>
          split at h
          next f' hacc =>
            rcases List.mem_cons.mp h with rfl | h
            · exact ⟨cap, hacc⟩
            · exact ih h
          next hacc => exact ih h
        next heq => exact ih h
      · exact ih h

theorem parseFlags_mem {t : String} {f : Flag} (h : f ∈ parseFlags t) :
    ∃ cap, acceptCap cap = some f :=
  scanF_mem h

/-! ### C1, C3, C5, C9, C10 -/

/-- C1: `switchLanguage` is atomic — when the acquisition or extraction run
for the new language fails, `toggle_language` returns the state unchanged:
the flag list, every flag's selected state, the cursor and the current
language are all identical to their values before the call. -/
theorem toggle_language_error_id (a : App) (h m : Option String) (e : FetchError)
    (herr : fetch_flags_model h m = .error e) :
    a.toggle_language (fetch_flags_model h m) = a := by
  rw [herr]
  rfl

theorem toggle_language_error_id_witness :
    fetch_flags_model none none = .error .noHelp ∧
      (App.new "cp" []).toggle_language (fetch_flags_model none none) = App.new "cp" [] :=
  ⟨rfl, toggle_language_error_id (App.new "cp" []) none none .noHelp rfl⟩

/-- C3: text captured from the `--help` phase is returned without falling
back to the manual page exactly when it contains at least 3 non-overlapping
occurrences of `" -"` or at least 3 occurrences of `"\n-"`; when the
heuristic holds the manual-page result is never consulted, and when it
fails the result is exactly that of the manual-page phase. -/
theorem help_accept_iff (text : String) :
    (fetch_raw_help_model (some text) none = .ok text ↔
      (3 ≤ countPair ' ' '-' text.toList ∨ 3 ≤ countPair '\n' '-' text.toList)) ∧
    ((3 ≤ countPair ' ' '-' text.toList ∨ 3 ≤ countPair '\n' '-' text.toList) →
      ∀ m, fetch_raw_help_model (some text) m = .ok text) ∧
    (¬ (3 ≤ countPair ' ' '-' text.toList ∨ 3 ≤ countPair '\n' '-' text.toList) →
      ∀ m, fetch_raw_help_model (some text) m = manFallback m) := by
  have base : ∀ m, fetch_raw_help_model (some text) m =
      if helpHeuristic text then Except.ok text else manFallback m := fun _ => rfl
  have hiff : helpHeuristic text = true ↔
      (3 ≤ countPair ' ' '-' text.toList ∨ 3 ≤ countPair '\n' '-' text.toList) := by
    simp [helpHeuristic, String.toList]
  by_cases hb : helpHeuristic text = true
  · refine ⟨?_, fun _ m => by rw [base m, if_pos hb], fun hc => absurd (hiff.mp hb) hc⟩
    rw [base none, if_pos hb]
    exact iff_of_true rfl (hiff.mp hb)
  · have hnc : ¬ (3 ≤ countPair ' ' '-' text.toList ∨ 3 ≤ countPair '\n' '-' text.toList) :=
      fun hc => hb (hiff.mpr hc)
    refine ⟨?_, fun hc _ => absurd hc hnc, fun _ m => by rw [base m, if_neg hb]⟩
    rw [base none, if_neg hb]
    exact iff_of_false (by simp [manFallback]) hnc

theorem help_accept_iff_witness :
    fetch_raw_help_model (some " -a -b -c") none = .ok " -a -b -c" ∧
      fetch_raw_help_model (some " -a -b") (some "man page text") = .ok "man page text" := by
  constructor
  · exact (help_accept_iff " -a -b -c").2.1 (by decide) none
  · exact ((help_accept_iff " -a -b").2.2 (by decide) (some "man page text")).trans rfl

/-- C5: when the scan accepts nothing, `fetch_flags` fails with the
`NoFlagsFound` error; a successful extraction never returns an empty list. -/
theorem extract_no_flags :
    (∀ t, parseFlags t = [] → fetch_flags_from_text t = .error .noFlagsFound) ∧
    (∀ t fs, fetch_flags_from_text t = .ok fs → fs ≠ []) := by
  constructor
  · intro t h
    simp only [fetch_flags_from_text]
    simp [h]
  · intro t fs h
    simp only [fetch_flags_from_text] at h
    split at h
    · exact absurd h (by simp)
    case isFalse hne =>
      cases h
      simpa using hne

theorem extract_no_flags_witness :
    parseFlags "hello world" = [] ∧
      fetch_flags_from_text "hello world" = .error .noFlagsFound :=
  ⟨by decide, extract_no_flags.1 "hello world" (by decide)⟩

/-- C9: on a nonempty flag list with the cursor at a valid index `i`,
`next` moves the cursor to 0 from the last index and to `i + 1` otherwise,
and `previous` moves it to the last index from 0 and to `i - 1` otherwise,
leaving everything else unchanged; on an empty flag list both are complete
no-ops. -/
theorem cursor_wrap (a : App) :
    (a.flags = [] → a.next = a ∧ a.previous = a) ∧
    (∀ i, a.cursor = some i → i < a.flags.length →
      a.next = { a with cursor := some (if i = a.flags.length - 1 then 0 else i + 1) } ∧
      a.previous = { a with cursor := some (if i = 0 then a.flags.length - 1 else i - 1) }) := by
  constructor
  · intro h
    constructor
    · unfold App.next
      simp [h]
    · unfold App.previous
      simp [h]
  · intro i hc hlt
    have hne : a.flags.isEmpty = false := by
      cases hf : a.flags with
      | nil => rw [hf] at hlt; simp at hlt
      | cons x xs => simp [hf]
    have hif : (if a.flags.length - 1 ≤ i then 0 else i + 1)
        = (if i = a.flags.length - 1 then 0 else i + 1) := by
      rcases Nat.lt_or_ge i (a.flags.length - 1) with hi | hi
      · rw [if_neg (by omega), if_neg (by omega)]
      · rw [if_pos hi, if_pos (by omega)]
    constructor
    · unfold App.next
      rw [hc]
      simp only [hne, Bool.false_eq_true, if_false, hif]
    · unfold App.previous
      rw [hc]
      simp only [hne, Bool.false_eq_true, if_false]

theorem cursor_wrap_witness :
    (App.new "cp" []).next = App.new "cp" [] ∧
      (App.new "cp" demoFlags).next =
        { App.new "cp" demoFlags with cursor := some 1 } ∧
      (App.new "cp" demoFlags).previous =
        { App.new "cp" demoFlags with cursor := some 1 } := by
  refine ⟨(cursor_wrap (App.new "cp" [])).1 rfl |>.1, ?_, ?_⟩
  · have := ((cursor_wrap (App.new "cp" demoFlags)).2 0 (by decide) (by decide)).1
    rw [this]
    decide
  · have := ((cursor_wrap (App.new "cp" demoFlags)).2 0 (by decide) (by decide)).2
    rw [this]
    decide

/-- C10: the dash-count heuristic is never applied to the manual-page
fallback — whenever the `--help` phase fails outright or its text is
rejected, a successful `man` run's text is returned unconditionally, with
no constraint on its dash patterns. -/
theorem man_unconditional :
    (∀ t m, ¬ (3 ≤ countPair ' ' '-' t.toList ∨ 3 ≤ countPair '\n' '-' t.toList) →
        fetch_raw_help_model (some t) (some m) = .ok m) ∧
    (∀ m, fetch_raw_help_model none (some m) = .ok m) := by
  constructor
  · intro t m hc
    have hb : helpHeuristic t = false := by
      cases hb : helpHeuristic t with
      | false => rfl
      | true =>
        exfalso
        apply hc
        simpa [helpHeuristic, String.toList] using hb
    have base : fetch_raw_help_model (some t) (some m)
        = if helpHeuristic t then Except.ok t else manFallback (some m) := rfl
    rw [base, if_neg (by simp [hb])]
    rfl
  · intro m
    rfl

theorem man_unconditional_witness :
    fetch_raw_help_model (some "xx") (some "man output with no dashes") =
      .ok "man output with no dashes" :=
  man_unconditional.1 "xx" "man output with no dashes" (by decide)

/-! ### C2, C6, C7, C8 -/

theorem fetch_flags_model_ok {h m : Option String} {nf : List Flag}
    (hk : fetch_flags_model h m = .ok nf) :
    ∃ t, fetch_flags_from_text t = .ok nf := by
  unfold fetch_flags_model at hk
  cases hr : fetch_raw_help_model h m with
  | ok t =>
    rw [hr] at hk
    exact ⟨t, hk⟩
  | error e =>
    rw [hr] at hk
    exact absurd hk (by simp [Except.bind])

theorem fetch_flags_from_text_ok {t : String} {nf : List Flag}
    (hk : fetch_flags_from_text t = .ok nf) : nf = parseFlags t := by
  simp only [fetch_flags_from_text] at hk
  split at hk
  · exact absurd hk (by simp)
  · cases hk
    rfl

theorem parseFlags_unselected {t : String} {f : Flag} (hf : f ∈ parseFlags t) :
    f.selected = false := by
  obtain ⟨cap, hc⟩ := parseFlags_mem hf
  exact acceptCap_selected hc

theorem as_arg_set_selected (f : Flag) (b : Bool) :
    Flag.as_arg { f with selected := b } = f.as_arg := rfl

theorem contains_iff_mem (l : List String) (x : String) :
    l.contains x = true ↔ x ∈ l := by
  simp [List.contains]

theorem mem_get_selected_args {a : App} {x : String} :
    x ∈ a.get_selected_args ↔ ∃ g ∈ a.flags, g.selected = true ∧ g.as_arg = x := by
  unfold App.get_selected_args
  simp only [List.mem_map, List.mem_filter]
  constructor
  · rintro ⟨g, ⟨hg, hs⟩, harg⟩
    exact ⟨g, hg, hs, harg⟩
  · rintro ⟨g, hg, hs, harg⟩
    exact ⟨g, ⟨hg, hs⟩, harg⟩

theorem toggle_language_flags (a : App) (nf : List Flag) :
    (a.toggle_language (.ok nf)).flags
      = nf.map (fun f =>
          if (a.get_selected_args).contains f.as_arg then { f with selected := true }
          else f) := by
  simp only [App.toggle_language]
  split
  · split <;> rfl
  · rfl

/-- C2: after a successful language switch, a flag of the newly extracted
list is selected exactly when its canonical argument string equals the
canonical argument string of some flag that was selected before the switch
(so a selected flag whose long form is unchanged across languages stays
selected even when its description changes). -/
theorem switch_selected_iff (a : App) (h m : Option String) (nf : List Flag)
    (hok : fetch_flags_model h m = .ok nf) :
    ∀ f ∈ (a.toggle_language (fetch_flags_model h m)).flags,
      (f.selected = true ↔ ∃ g ∈ a.flags, g.selected = true ∧ g.as_arg = f.as_arg) := by
  intro f hf
  rw [hok] at hf
  rw [toggle_language_flags] at hf
  obtain ⟨g, hg, rfl⟩ := List.mem_map.mp hf
  have hgsel : g.selected = false := by
    obtain ⟨t, ht⟩ := fetch_flags_model_ok hok
    exact parseFlags_unselected (fetch_flags_from_text_ok ht ▸ hg)
  by_cases hc : (a.get_selected_args).contains g.as_arg = true
  · rw [if_pos hc]
    refine iff_of_true rfl ?_
    have := (contains_iff_mem _ _).mp hc
    obtain ⟨g', hg', hs', harg'⟩ := mem_get_selected_args.mp this
    exact ⟨g', hg', hs', harg'⟩
  · rw [if_neg hc]
    refine iff_of_false (by rw [hgsel]; simp) ?_
    rintro ⟨g', hg', hs', harg'⟩
    exact hc ((contains_iff_mem _ _).mpr (mem_get_selected_args.mpr ⟨g', hg', hs', harg'⟩))

theorem switch_selected_iff_witness :
    fetch_flags_model (some demoHelpTextB) none = .ok demoFlagsB ∧
    ((⟨none, some "--dry-run", "Nichts ausfuehren", true⟩ : Flag).selected = true ↔
      ∃ g ∈ demoAppSel.flags, g.selected = true ∧
        g.as_arg = (⟨none, some "--dry-run", "Nichts ausfuehren", true⟩ : Flag).as_arg) := by
  refine ⟨rfl, ?_⟩
  refine switch_selected_iff demoAppSel (some demoHelpTextB) none demoFlagsB rfl
    ⟨none, some "--dry-run", "Nichts ausfuehren", true⟩ ?_
  decide

/-- C6: on the spec's two-line example, extraction yields exactly the two
expected flags in order, and with only the second selected and target `cp`
the preview string is `"cp --dry-run"`; with nothing selected it is the
target name alone. -/
theorem end_to_end_demo :
    fetch_flags_from_text demoHelpText = .ok demoFlags ∧
    demoAppSel.build_preview_string = "cp --dry-run" ∧
    (App.new "cp" demoFlags).build_preview_string = "cp" := by
  refine ⟨rfl, by decide, by decide⟩

/-- C7 (counterexample): the description length check of the source,
`desc.len() < 2`, counts UTF-8 bytes, not characters.  A description of one
two-byte character such as `"ß"` passes it, so the scan accepts a flag whose
trimmed description has a single character. -/
theorem desc_min2_counterexample :
    parseFlags "  -v  ß" = [⟨some "-v", none, "ß", false⟩] ∧
    (⟨some "-v", none, "ß", false⟩ : Flag).desc.length < 2 := by
  refine ⟨by decide, by decide⟩

/-- C7 (amended): an accepted flag's description is exactly the captured
trailing text with surrounding whitespace trimmed, and its UTF-8 byte length
is at least 2; a match whose trimmed description is shorter than 2 bytes
yields no flag.  (The bound is a byte count: a one-character multi-byte
description is accepted.) -/
theorem desc_trimmed_min2 :
    (∀ cap f, acceptCap cap = some f →
        f.desc = (trimWS cap.descRaw).asString ∧ 2 ≤ utf8Len f.desc.toList) ∧
    (∀ cap : Caps, utf8Len (trimWS cap.descRaw) < 2 → acceptCap cap = none) ∧
    (∀ t : String, ∀ f ∈ parseFlags t, 2 ≤ utf8Len f.desc.toList) := by
  refine ⟨fun cap f h => acceptCap_desc h, fun cap h => acceptCap_short_desc h, ?_⟩
  intro t f hf
  obtain ⟨cap, hc⟩ := parseFlags_mem hf
  exact (acceptCap_desc hc).2

theorem desc_trimmed_min2_witness :
    acceptCap ⟨some ['-', 'v'], none, [' ', 'o', 'k', ' ']⟩ =
      some ⟨some "-v", none, "ok", false⟩ ∧
    (⟨some "-v", none, "ok", false⟩ : Flag).desc =
      (trimWS [' ', 'o', 'k', ' ']).asString ∧
    acceptCap ⟨some ['-', 'v'], none, [' ', 'x', ' ']⟩ = none := by
  refine ⟨by decide, ?_, ?_⟩
  · exact (desc_trimmed_min2.1 ⟨some ['-', 'v'], none, [' ', 'o', 'k', ' ']⟩
      ⟨some "-v", none, "ok", false⟩ (by decide)).1
  · exact desc_trimmed_min2.2.1 ⟨some ['-', 'v'], none, [' ', 'x', ' ']⟩ (by decide)

/-- C8: every flag extraction ever returns has at least one of its short and
long forms present — a flag with neither is never constructed. -/
theorem flags_have_token (t : String) (f : Flag) (hf : f ∈ parseFlags t) :
    f.short.isSome = true ∨ f.long.isSome = true := by
  obtain ⟨cap, hc⟩ := parseFlags_mem hf
  exact acceptCap_token hc

/-! ### List utilities for the scan analysis -/

theorem takeWhile_append_not_all {α : Type} {p : α → Bool} {a : List α} (b : List α)
    (h : a.all p = false) : (a ++ b).takeWhile p = a.takeWhile p := by
  induction a with
  | nil => simp at h
  | cons x xs ih =>
    rw [List.all_cons] at h
    cases hx : p x with
    | false => simp [List.takeWhile_cons, hx]
    | true =>
      rw [hx] at h
      simp only [Bool.true_and] at h
      simp [List.takeWhile_cons, hx, ih h]

theorem dropWhile_append_not_all {α : Type} {p : α → Bool} {a : List α} (b : List α)
    (h : a.all p = false) : (a ++ b).dropWhile p = a.dropWhile p ++ b := by
  induction a with
  | nil => simp at h
  | cons x xs ih =>
    rw [List.all_cons] at h
    cases hx : p x with
    | false => simp [List.dropWhile_cons, hx]
    | true =>
      rw [hx] at h
      simp only [Bool.true_and] at h
      simp [List.dropWhile_cons, hx, ih h]

theorem takeWhile_all_eq {α : Type} {p : α → Bool} {a : List α} (h : a.all p = true) :
    a.takeWhile p = a :=
  List.takeWhile_eq_self_iff.mpr (List.all_eq_true.mp h)

theorem dropWhile_all_eq {α : Type} {p : α → Bool} {a : List α} (h : a.all p = true) :
    a.dropWhile p = [] :=
  List.dropWhile_eq_nil_iff.mpr (List.all_eq_true.mp h)

theorem takeWhile_append_nl {p : Char → Bool} (h : p '\n' = false) (a T : List Char) :
    (a ++ '\n' :: T).takeWhile p = a.takeWhile p := by
  cases ha : a.all p with
  | true =>
    rw [List.takeWhile_append_of_pos (List.all_eq_true.mp ha), takeWhile_all_eq ha]
    simp [List.takeWhile_cons, h]
  | false => exact takeWhile_append_not_all _ ha

theorem dropWhile_append_nl {p : Char → Bool} (h : p '\n' = false) (a T : List Char) :
    (a ++ '\n' :: T).dropWhile p = a.dropWhile p ++ '\n' :: T := by
  cases ha : a.all p with
  | true =>
    rw [List.dropWhile_append_of_pos (List.all_eq_true.mp ha), dropWhile_all_eq ha]
    simp [List.dropWhile_cons, h]
  | false => exact dropWhile_append_not_all _ ha

theorem head?_dropWhile_not {α : Type} (p : α → Bool) (l : List α) {x : α}
    (h : (l.dropWhile p).head? = some x) : p x = false := by
  induction l with
  | nil => simp at h
  | cons y ys ih =>
    by_cases hy : p y = true
    · rw [List.dropWhile_cons, if_pos hy] at h
      exact ih h
    · rw [List.dropWhile_cons, if_neg hy] at h
      simp only [List.head?_cons, Option.some.injEq] at h
      subst h
      cases hpy : p y with
      | false => rfl
      | true => exact absurd hpy hy

theorem reverse_takeWhile_reverse_suffix {α : Type} (q : α → Bool) (l : List α) :
    (l.reverse.takeWhile q).reverse <:+ l := by
  refine ⟨(l.reverse.dropWhile q).reverse, ?_⟩
  calc (l.reverse.dropWhile q).reverse ++ (l.reverse.takeWhile q).reverse
      = (l.reverse.takeWhile q ++ l.reverse.dropWhile q).reverse :=
        (List.reverse_append _ _).symm
    _ = l.reverse.reverse := by rw [List.takeWhile_append_dropWhile]
    _ = l := List.reverse_reverse l

theorem dropWhile_not_all_ne_nil {α : Type} {p : α → Bool} {a : List α}
    (h : a.all p = false) : a.dropWhile p ≠ [] := by
  intro hnil
  have := List.dropWhile_eq_nil_iff.mp hnil
  rw [List.all_eq_true.mpr this] at h
  cases h

theorem dropWhile_not_all_lt {α : Type} {p : α → Bool} {s : List α}
    (h : (s.takeWhile p).isEmpty = false) : (s.dropWhile p).length < s.length := by
  have hsum : (s.takeWhile p).length + (s.dropWhile p).length = s.length := by
    rw [← List.length_append, List.takeWhile_append_dropWhile]
  have hne : s.takeWhile p ≠ [] := List.isEmpty_eq_false.mp h
  have : 0 < (s.takeWhile p).length := List.length_pos.mpr hne
  omega

/-! ### Structure of `matchTail` results -/

theorem matchTail_suffix {s d r : List Char} (h : matchTail s = some (d, r)) :
    r <:+ s := by
  unfold matchTail at h
  split at h
  · exact absurd h (by simp)
  · split at h
    · cases h
      exact (List.dropWhile_suffix _).trans (List.dropWhile_suffix _)
    next hdrop =>
      split at h
      · cases h
        have hs : s.takeWhile isWS = s := by
          have h2 := List.takeWhile_append_dropWhile isWS s
          rw [hdrop, List.append_nil] at h2
          exact h2
        rw [hs]
        exact reverse_takeWhile_reverse_suffix _ _
      · exact absurd h (by simp)

theorem matchTail_rest {s d r : List Char} (h : matchTail s = some (d, r)) :
    r = [] ∨ r.head? = some '\n' := by
  unfold matchTail at h
  split at h
  · exact absurd h (by simp)
  · split at h
    · cases h
      cases hr : (s.dropWhile isWS).dropWhile (fun c => ¬ c = '\n') with
      | nil => exact Or.inl rfl
      | cons x xs =>
        refine Or.inr ?_
        have hx := head?_dropWhile_not (fun c => ¬ c = '\n') (s.dropWhile isWS)
          (by rw [hr]; rfl)
        simp only [decide_eq_false_iff_not, not_not] at hx
        rw [List.head?_cons, hx]
    · split at h
      · cases h
        cases hr : ((s.takeWhile isWS).reverse.takeWhile (fun c => c = '\n')).reverse with
        | nil => exact Or.inl rfl
        | cons x xs =>
          refine Or.inr ?_
          have hx : x ∈ ((s.takeWhile isWS).reverse.takeWhile (fun c => c = '\n')).reverse := by
            rw [hr]; exact List.mem_cons_self _ _
          rw [List.mem_reverse] at hx
          have := List.mem_takeWhile_imp hx
          simp only [decide_eq_true_eq] at this
          rw [List.head?_cons, this]
      · exact absurd h (by simp)

theorem matchTail_noNL_rest {s d r : List Char} (hnl : '\n' ∉ s)
    (h : matchTail s = some (d, r)) : r = [] := by
  rcases matchTail_rest h with hr | hr
  · exact hr
  · exfalso
    cases r with
    | nil => simp at hr
    | cons x xs =>
      simp only [List.head?_cons, Option.some.injEq] at hr
      cases hr
      exact hnl ((matchTail_suffix h).mem (List.mem_cons_self _ _))

/-! ### Every match remainder comes from a `matchTail` call on a suffix -/

theorem stripComma_suffix (v' : List Char) : stripComma v' <:+ v' := by
  unfold stripComma
  split
  · cases v' with
    | nil => exact List.suffix_refl _
    | cons x xs => exact List.suffix_cons _ _
  · exact List.suffix_refl _

theorem groupAttempt_tail {c : Char} {v' : List Char} {cap : Caps} {r : List Char}
    (h : groupAttempt c v' = some (cap, r)) :
    ∃ u d, u <:+ v' ∧ matchTail u = some (d, r) := by
  unfold groupAttempt at h
  split at h
  · exact absurd h (by simp)
  · split at h
    next a b v3 heq =>
      split at h
      · split at h
        · exact absurd h (by simp)
        · rcases Option.map_eq_some'.mp h with ⟨⟨d0, r0⟩, hmt, hpr⟩
          cases hpr
          refine ⟨v3.dropWhile isLongTokenChar, d0, ?_, hmt⟩
          have h1 : v3.dropWhile isLongTokenChar <:+ v3 := List.dropWhile_suffix _
          have h2 : v3 <:+ a :: b :: v3 :=
            (List.suffix_cons _ _).trans (List.suffix_cons _ _)
          have h3 : a :: b :: v3 <:+ stripComma v' := heq ▸ List.dropWhile_suffix _
          exact ((h1.trans h2).trans h3).trans (stripComma_suffix v')
      · exact absurd h (by simp)
    next => exact absurd h (by simp)

theorem longOnly_tail {v' : List Char} {cap : Caps} {r : List Char}
    (h : longOnly v' = some (cap, r)) :
    ∃ u d, u <:+ v' ∧ matchTail u = some (d, r) := by
  unfold longOnly at h
  split at h
  · exact absurd h (by simp)
  · rcases Option.map_eq_some'.mp h with ⟨⟨d0, r0⟩, hmt, hpr⟩
    cases hpr
    exact ⟨v'.dropWhile isLongTokenChar, d0, List.dropWhile_suffix _, hmt⟩

theorem matchCore_tail {v : List Char} {cap : Caps} {r : List Char}
    (h : matchCore v = some (cap, r)) :
    ∃ u d, u <:+ v ∧ matchTail u = some (d, r) := by
  unfold matchCore at h
  split at h
  next c0 c v' =>
    split at h
    · split at h
      · split at h
        next res hga =>
          cases h
          obtain ⟨u, d, hu, ht⟩ := groupAttempt_tail hga
          exact ⟨u, d, hu.trans ((List.suffix_cons _ _).trans (List.suffix_cons _ _)), ht⟩
        next hga =>
          rcases Option.map_eq_some'.mp h with ⟨⟨d0, r0⟩, hmt, hpr⟩
          cases hpr
          exact ⟨v', d0, (List.suffix_cons _ _).trans (List.suffix_cons _ _), hmt⟩
      · split at h
        · obtain ⟨u, d, hu, ht⟩ := longOnly_tail h
          exact ⟨u, d, hu.trans ((List.suffix_cons _ _).trans (List.suffix_cons _ _)), ht⟩
        · exact absurd h (by simp)
    · exact absurd h (by simp)
  next => exact absurd h (by simp)

theorem matchCore_suffix {v : List Char} {cap : Caps} {r : List Char}
    (h : matchCore v = some (cap, r)) : r <:+ v := by
  obtain ⟨u, d, hu, ht⟩ := matchCore_tail h
  exact (matchTail_suffix ht).trans hu

theorem matchAt_tail {s : List Char} {cap : Caps} {r : List Char}
    (h : matchAt s = some (cap, r)) :
    ∃ u d, u <:+ s ∧ matchTail u = some (d, r) := by
  unfold matchAt at h
  split at h
  · exact absurd h (by simp)
  · obtain ⟨u, d, hu, ht⟩ := matchCore_tail h
    exact ⟨u, d, hu.trans (List.dropWhile_suffix _), ht⟩

theorem matchAt_rest_lt {s : List Char} {cap : Caps} {r : List Char}
    (h : matchAt s = some (cap, r)) : r.length < s.length := by
  unfold matchAt at h
  split at h
  · exact absurd h (by simp)
  next hne =>
    have h1 : r <:+ s.dropWhile isWS := matchCore_suffix h
    have h2 : (s.dropWhile isWS).length < s.length :=
      dropWhile_not_all_lt (Bool.not_eq_true _ ▸ Bool.of_not_eq_true hne)
    exact lt_of_le_of_lt h1.length_le h2

theorem matchAt_noNL_rest {s : List Char} {cap : Caps} {r : List Char}
    (hnl : '\n' ∉ s) (h : matchAt s = some (cap, r)) : r = [] := by
  obtain ⟨u, d, hu, ht⟩ := matchAt_tail h
  exact matchTail_noNL_rest (fun hm => hnl (hu.mem hm)) ht

/-! ### Evaluation lemmas for `matchTail` and appending a further line -/

theorem matchTail_eq_none {s : List Char} (h : (s.takeWhile isWS).isEmpty = true) :
    matchTail s = none := by
  unfold matchTail
  rw [if_pos h]

theorem matchTail_eq_main {s : List Char} {x : Char} {xs : List Char}
    (hemp : (s.takeWhile isWS).isEmpty = false) (h : s.dropWhile isWS = x :: xs) :
    matchTail s = some ((x :: xs).takeWhile (fun c => ¬ c = '\n'),
                       (x :: xs).dropWhile (fun c => ¬ c = '\n')) := by
  unfold matchTail
  rw [if_neg (by simp [hemp]), h]

theorem matchTail_append {u : List Char} (T : List Char) (hnl : '\n' ∉ u)
    (hall : u.all isWS = false) :
    matchTail (u ++ '\n' :: T) = (matchTail u).map (fun p => (p.1, '\n' :: T)) := by
  have htake := takeWhile_append_not_all (p := isWS) ('\n' :: T) hall
  have hdrop := dropWhile_append_not_all (p := isWS) ('\n' :: T) hall
  obtain ⟨x, xs, hx⟩ := List.exists_cons_of_ne_nil (dropWhile_not_all_ne_nil hall)
  have hallp : ∀ y ∈ (x :: xs : List Char), (fun c => decide (¬ c = '\n')) y = true := by
    intro y hy
    rw [← hx] at hy
    have hyu : y ∈ u := (List.dropWhile_suffix isWS).mem hy
    simp only [decide_eq_true_eq]
    intro hEq
    exact hnl (hEq ▸ hyu)
  by_cases hemp : (u.takeWhile isWS).isEmpty = true
  · rw [matchTail_eq_none (htake ▸ hemp), matchTail_eq_none hemp]
    rfl
  · have hemp1 : (u.takeWhile isWS).isEmpty = false := Bool.of_not_eq_true hemp
    have hemp2 : ((u ++ '\n' :: T).takeWhile isWS).isEmpty = false := by
      rw [htake]; exact hemp1
    rw [matchTail_eq_main hemp1 hx,
        matchTail_eq_main hemp2 (by rw [hdrop, hx, List.cons_append])]
    simp only [Option.map_some', ← List.cons_append]
    rw [takeWhile_append_nl (by simp) (x :: xs) T,
        dropWhile_append_nl (by simp) (x :: xs) T,
        dropWhile_all_eq (List.all_eq_true.mpr hallp)]
    rfl

/-! ### Evaluation lemmas for the token matchers -/

theorem matchCore_nil : matchCore [] = none := rfl

theorem matchCore_one (c : Char) : matchCore [c] = none := rfl

theorem matchCore_cons (c0 c : Char) (v' : List Char) :
    matchCore (c0 :: c :: v') =
      if c0 = '-' then
        if isShortTokenChar c then
          match groupAttempt c v' with
          | some res => some res
          | none =>
            (matchTail v').map (fun p => (⟨some ['-', c], none, p.1⟩, p.2))
        else if c = '-' then longOnly v'
        else none
      else none := rfl

theorem badCore_cons (c0 c : Char) (v' : List Char) :
    badCore (c0 :: c :: v') =
      if c0 = '-' then
        if isShortTokenChar c then
          if (stripComma v').all isWS then true
          else
            match (stripComma v').dropWhile isWS with
            | a :: b :: v3 =>
              if a = '-' ∧ b = '-' then
                !(v3.takeWhile isLongTokenChar).isEmpty
                  && (v3.dropWhile isLongTokenChar).all isWS
              else false
            | _ => false
        else if c = '-' then
          !(v'.takeWhile isLongTokenChar).isEmpty
            && (v'.dropWhile isLongTokenChar).all isWS
        else false
      else false := rfl

theorem stripComma_append {v' : List Char} (ext : List Char) (hne : v' ≠ []) :
    stripComma (v' ++ ext) = stripComma v' ++ ext := by
  cases v' with
  | nil => exact absurd rfl hne
  | cons y ys =>
    by_cases hy : y = ','
    · simp [stripComma, hy]
    · simp [stripComma, hy]

theorem all_false_of_stripComma {v' : List Char} (h : (stripComma v').all isWS = false) :
    v'.all isWS = false := by
  cases v' with
  | nil => simp [stripComma] at h
  | cons y ys =>
    by_cases hy : y = ','
    · subst hy
      rw [List.all_cons, show isWS ',' = false from by decide, Bool.false_and]
    · rw [show stripComma (y :: ys) = y :: ys from by simp [stripComma, hy]] at h
      exact h

theorem groupAttempt_eq_none_empty {c : Char} {v' : List Char}
    (h : ((stripComma v').takeWhile isWS).isEmpty = true) : groupAttempt c v' = none := by
  unfold groupAttempt
  rw [if_pos h]

theorem groupAttempt_eq_shape {c : Char} {v' : List Char} {a b : Char} {v3 : List Char}
    (hemp : ((stripComma v').takeWhile isWS).isEmpty = false)
    (h : (stripComma v').dropWhile isWS = a :: b :: v3) :
    groupAttempt c v' =
      if a = '-' ∧ b = '-' then
        if (v3.takeWhile isLongTokenChar).isEmpty then none
        else
          (matchTail (v3.dropWhile isLongTokenChar)).map
            (fun p =>
              (⟨some ['-', c], some ('-' :: '-' :: v3.takeWhile isLongTokenChar), p.1⟩, p.2))
      else none := by
  unfold groupAttempt
  rw [if_neg (by simp [hemp]), h]

theorem groupAttempt_eq_none_one {c : Char} {v' : List Char} {a : Char}
    (hemp : ((stripComma v').takeWhile isWS).isEmpty = false)
    (h : (stripComma v').dropWhile isWS = [a]) : groupAttempt c v' = none := by
  unfold groupAttempt
  rw [if_neg (by simp [hemp]), h]

/-! ### Appending a further line commutes with matching, off the bad shapes -/

theorem groupAttempt_append {c : Char} {v' : List Char} (T : List Char)
    (hnl : '\n' ∉ v')
    (hv1 : (stripComma v').all isWS = false)
    (hshape : ∀ a b v3, (stripComma v').dropWhile isWS = a :: b :: v3 → a = '-' → b = '-' →
        (v3.takeWhile isLongTokenChar).isEmpty = true ∨
          (v3.dropWhile isLongTokenChar).all isWS = false) :
    groupAttempt c (v' ++ '\n' :: T)
      = (groupAttempt c v').map (fun p => (p.1, '\n' :: T)) := by
  have hne : v' ≠ [] := by rintro rfl; simp [stripComma] at hv1
  have hsca := stripComma_append ('\n' :: T) hne
  have htake : (stripComma (v' ++ '\n' :: T)).takeWhile isWS
      = (stripComma v').takeWhile isWS := by
    rw [hsca]; exact takeWhile_append_not_all _ hv1
  have hdrop : (stripComma (v' ++ '\n' :: T)).dropWhile isWS
      = (stripComma v').dropWhile isWS ++ '\n' :: T := by
    rw [hsca]; exact dropWhile_append_not_all _ hv1
  by_cases hemp : ((stripComma v').takeWhile isWS).isEmpty = true
  · rw [groupAttempt_eq_none_empty (htake ▸ hemp), groupAttempt_eq_none_empty hemp]
    rfl
  · have hemp1 : ((stripComma v').takeWhile isWS).isEmpty = false :=
      Bool.of_not_eq_true hemp
    have hemp2 : ((stripComma (v' ++ '\n' :: T)).takeWhile isWS).isEmpty = false := by
      rw [htake]; exact hemp1
    obtain ⟨a, v2t, hv2⟩ :=
      List.exists_cons_of_ne_nil (dropWhile_not_all_ne_nil hv1)
    cases v2t with
    | nil =>
      rw [groupAttempt_eq_shape hemp2 (by rw [hdrop, hv2]; rfl),
          groupAttempt_eq_none_one hemp1 hv2, if_neg (by simp)]
      rfl
    | cons b v3 =>
      have hv3nl : '\n' ∉ v3 := by
        intro hm
        apply hnl
        have h1 : '\n' ∈ a :: b :: v3 := by simp [hm]
        rw [← hv2] at h1
        exact (stripComma_suffix v').mem ((List.dropWhile_suffix isWS).mem h1)
      rw [groupAttempt_eq_shape hemp2
            (by rw [hdrop, hv2, List.cons_append, List.cons_append]),
          groupAttempt_eq_shape hemp1 hv2]
      by_cases hab : a = '-' ∧ b = '-'
      · rw [if_pos hab, if_pos hab,
            takeWhile_append_nl (by decide) v3 T, dropWhile_append_nl (by decide) v3 T]
        by_cases hde : (v3.takeWhile isLongTokenChar).isEmpty = true
        · rw [if_pos hde, if_pos hde]
          rfl
        · have hde1 : (v3.takeWhile isLongTokenChar).isEmpty = false :=
            Bool.of_not_eq_true hde
          rw [if_neg (by simp [hde1]), if_neg (by simp [hde1])]
          have hall : (v3.dropWhile isLongTokenChar).all isWS = false := by
            rcases hshape a b v3 hv2 hab.1 hab.2 with h1 | h1
            · rw [h1] at hde1; cases hde1
            · exact h1
          rw [matchTail_append T (fun hm => hv3nl ((List.dropWhile_suffix _).mem hm)) hall]
          cases matchTail (v3.dropWhile isLongTokenChar) <;> rfl
      · rw [if_neg hab, if_neg hab]
        rfl

theorem longOnly_append {v' : List Char} (T : List Char) (hnl : '\n' ∉ v')
    (hcond : (v'.takeWhile isLongTokenChar).isEmpty = true ∨
      (v'.dropWhile isLongTokenChar).all isWS = false) :
    longOnly (v' ++ '\n' :: T) = (longOnly v').map (fun p => (p.1, '\n' :: T)) := by
  unfold longOnly
  rw [takeWhile_append_nl (by decide) v' T, dropWhile_append_nl (by decide) v' T]
  by_cases hde : (v'.takeWhile isLongTokenChar).isEmpty = true
  · rw [if_pos hde, if_pos hde]
    rfl
  · rw [if_neg hde, if_neg hde]
    have hall : (v'.dropWhile isLongTokenChar).all isWS = false := by
      rcases hcond with h1 | h1
      · exact absurd h1 hde
      · exact h1
    rw [matchTail_append T (fun hm => hnl ((List.dropWhile_suffix _).mem hm)) hall]
    cases matchTail (v'.dropWhile isLongTokenChar) <;> rfl

theorem matchCore_append {v : List Char} (T : List Char) (hnl : '\n' ∉ v)
    (hbad : badCore v = false) :
    matchCore (v ++ '\n' :: T) = (matchCore v).map (fun p => (p.1, '\n' :: T)) := by
  cases v with
  | nil =>
    simp only [List.nil_append]
    cases T with
    | nil => rfl
    | cons t ts =>
      rw [matchCore_nil, matchCore_cons, if_neg (by decide)]
      rfl
  | cons c0 v0 =>
    cases v0 with
    | nil =>
      simp only [List.cons_append, List.nil_append]
      rw [matchCore_one, matchCore_cons]
      by_cases hc0 : c0 = '-'
      · rw [if_pos hc0, if_neg (by decide : ¬ isShortTokenChar '\n' = true),
            if_neg (by decide : ¬ ('\n' : Char) = '-')]
        rfl
      · rw [if_neg hc0]
        rfl
    | cons c v' =>
      have hnl' : '\n' ∉ v' := fun hm =>
        hnl (List.mem_cons_of_mem _ (List.mem_cons_of_mem _ hm))
      simp only [List.cons_append]
      rw [matchCore_cons, matchCore_cons]
      by_cases hc0 : c0 = '-'
      case neg =>
        rw [if_neg hc0, if_neg hc0]
        rfl
      case pos =>
        subst hc0
        rw [if_pos rfl, if_pos rfl]
        rw [badCore_cons, if_pos rfl] at hbad
        by_cases hsc : isShortTokenChar c = true
        · rw [if_pos hsc, if_pos hsc]
          rw [if_pos hsc] at hbad
          have hv1 : (stripComma v').all isWS = false := by
            by_cases h1 : (stripComma v').all isWS = true
            · rw [if_pos h1] at hbad; cases hbad
            · exact Bool.of_not_eq_true h1
          rw [if_neg (by simp [hv1])] at hbad
          have hshape : ∀ a b v3, (stripComma v').dropWhile isWS = a :: b :: v3 →
              a = '-' → b = '-' →
              (v3.takeWhile isLongTokenChar).isEmpty = true ∨
                (v3.dropWhile isLongTokenChar).all isWS = false := by
            intro a b v3 heq ha hb
            rw [heq] at hbad
            have hbad2 : (if a = '-' ∧ b = '-' then
                !(v3.takeWhile isLongTokenChar).isEmpty
                  && (v3.dropWhile isLongTokenChar).all isWS
              else false) = false := hbad
            rw [if_pos ⟨ha, hb⟩] at hbad2
            by_cases hde : (v3.takeWhile isLongTokenChar).isEmpty = true
            · exact Or.inl hde
            · right
              rw [Bool.of_not_eq_true hde] at hbad2
              simpa using hbad2
          rw [groupAttempt_append T hnl' hv1 hshape]
          cases hga : groupAttempt c v' with
          | some res => rfl
          | none =>
            rw [matchTail_append T hnl' (all_false_of_stripComma hv1)]
            cases matchTail v' <;> rfl
        · rw [if_neg hsc, if_neg hsc]
          rw [if_neg hsc] at hbad
          by_cases hld : c = '-'
          · rw [if_pos hld, if_pos hld]
            rw [if_pos hld] at hbad
            refine longOnly_append T hnl' ?_
            by_cases hde : (v'.takeWhile isLongTokenChar).isEmpty = true
            · exact Or.inl hde
            · right
              rw [Bool.of_not_eq_true hde] at hbad
              simpa using hbad
          · rw [if_neg hld, if_neg hld]
            rfl

theorem matchAt_append {L : List Char} (T : List Char) (hnl : '\n' ∉ L)
    (hall : L.all isWS = false) (hbad : badCore (L.dropWhile isWS) = false) :
    matchAt (L ++ '\n' :: T) = (matchAt L).map (fun p => (p.1, '\n' :: T)) := by
  unfold matchAt
  rw [takeWhile_append_not_all _ hall, dropWhile_append_not_all _ hall]
  by_cases hemp : (L.takeWhile isWS).isEmpty = true
  · rw [if_pos hemp, if_pos hemp]
    rfl
  · rw [if_neg hemp, if_neg hemp]
    exact matchCore_append T (fun hm => hnl ((List.dropWhile_suffix _).mem hm)) hbad

theorem matchAt_ws_skip {W : List Char} (hW : W.all isWS = true) (hne : W ≠ [])
    (s : List Char) (hs : ∀ c s', s = c :: s' → isWS c = true ∨ c ≠ '-') :
    matchAt (W ++ s) = matchAt s := by
  cases s with
  | nil =>
    rw [List.append_nil]
    unfold matchAt
    rw [takeWhile_all_eq hW, dropWhile_all_eq hW,
        if_neg (by simp [List.isEmpty_eq_false.mpr hne]), matchCore_nil]
    rfl
  | cons c s' =>
    by_cases hws : isWS c = true
    · unfold matchAt
      rw [List.takeWhile_append_of_pos (List.all_eq_true.mp hW),
          List.dropWhile_append_of_pos (List.all_eq_true.mp hW)]
      have h1 : (W ++ (c :: s').takeWhile isWS).isEmpty = false := by
        cases W with
        | nil => exact absurd rfl hne
        | cons w ws => rfl
      have h2 : ((c :: s').takeWhile isWS).isEmpty = false := by
        rw [List.takeWhile_cons_of_pos hws]
        rfl
      rw [if_neg (by simp [h1]), if_neg (by simp [h2])]
    · have hdash : c ≠ '-' := (hs c s' rfl).resolve_left hws
      unfold matchAt
      rw [List.takeWhile_append_of_pos (List.all_eq_true.mp hW),
          List.dropWhile_append_of_pos (List.all_eq_true.mp hW),
          List.takeWhile_cons_of_neg hws, List.dropWhile_cons_of_neg hws,
          List.append_nil, if_neg (by simp [List.isEmpty_eq_false.mpr hne])]
      cases s' with
      | nil =>
        rw [matchCore_one]
        rfl
      | cons c2 s'' =>
        rw [matchCore_cons, if_neg hdash]
        rfl

/-! ### Lines of a text -/

theorem splitLines_nil : splitLines [] = [[]] := rfl

theorem splitLines_cons (c : Char) (rest : List Char) :
    splitLines (c :: rest) =
      match splitLines rest with
      | l :: ls => if c = '\n' then [] :: l :: ls else (c :: l) :: ls
      | [] => [[]] := rfl

theorem splitLines_ne_nil (l : List Char) : splitLines l ≠ [] := by
  induction l with
  | nil => simp [splitLines_nil]
  | cons c rest ih =>
    rw [splitLines_cons]
    obtain ⟨l0, ls, h⟩ := List.exists_cons_of_ne_nil ih
    rw [h]
    by_cases hc : c = '\n' <;> simp [hc]

theorem splitLines_noNL {l : List Char} (h : '\n' ∉ l) : splitLines l = [l] := by
  induction l with
  | nil => rfl
  | cons c rest ih =>
    have hc : c ≠ '\n' := fun hEq => h (hEq ▸ List.mem_cons_self _ _)
    have hrest : '\n' ∉ rest := fun hm => h (List.mem_cons_of_mem _ hm)
    rw [splitLines_cons, ih hrest]
    simp [hc]

theorem splitLines_append {L : List Char} (T : List Char) (h : '\n' ∉ L) :
    splitLines (L ++ '\n' :: T) = L :: splitLines T := by
  induction L with
  | nil =>
    simp only [List.nil_append]
    rw [splitLines_cons]
    obtain ⟨l0, ls, hT⟩ := List.exists_cons_of_ne_nil (splitLines_ne_nil T)
    rw [hT]
    simp
  | cons c L' ih =>
    have hc : c ≠ '\n' := fun hEq => h (hEq ▸ List.mem_cons_self _ _)
    have hL' : '\n' ∉ L' := fun hm => h (List.mem_cons_of_mem _ hm)
    rw [List.cons_append, splitLines_cons, ih hL']
    simp [hc]

theorem splitLines_head (l : List Char) :
    (splitLines l).head? = some (l.takeWhile (fun c => ¬ c = '\n')) := by
  induction l with
  | nil => rfl
  | cons c rest ih =>
    rw [splitLines_cons]
    obtain ⟨l0, ls, h⟩ := List.exists_cons_of_ne_nil (splitLines_ne_nil rest)
    rw [h] at ih ⊢
    by_cases hc : c = '\n'
    · subst hc
      simp [List.takeWhile_cons]
    · simp only [List.head?_cons, Option.some.injEq] at ih
      simp [hc, List.takeWhile_cons, ih]

theorem codeLineFlag_allWS {L : List Char} (h : L.all isWS = true) : codeLineFlag L = none := by
  unfold codeLineFlag
  cases L with
  | nil => rfl
  | cons c rest =>
    have hma : matchAt (c :: rest) = none := by
      unfold matchAt
      rw [takeWhile_all_eq h, dropWhile_all_eq h, if_neg (by simp), matchCore_nil]
    rw [hma]

/-! ### Stepping the scan -/

theorem scanF_zero (s : List Char) (b : Bool) : scanF 0 s b = [] := rfl

theorem scanF_succ (n : Nat) : scanF (n + 1) = scanStep (scanF n) := rfl

theorem scanF_nil (n : Nat) (b : Bool) : scanF n [] b = [] := by
  cases n <;> rfl

theorem scanStep_cons (go : List Char → Bool → List Flag) (c : Char) (rest : List Char)
    (b : Bool) :
    scanStep go (c :: rest) b =
      if b then
        match matchAt (c :: rest) with
        | some (cap, r) =>
          match acceptCap cap with
          | some f => f :: go r false
          | none => go r false
        | none => go rest (c = '\n')
      else go rest (c = '\n') := rfl

theorem scanStep_cons_start_some {go : List Char → Bool → List Flag} {c : Char}
    {rest r : List Char} {cap : Caps} (h : matchAt (c :: rest) = some (cap, r)) :
    scanStep go (c :: rest) true =
      match acceptCap cap with
      | some f => f :: go r false
      | none => go r false := by
  rw [scanStep_cons, if_pos rfl, h]

theorem scanStep_cons_start_none {go : List Char → Bool → List Flag} {c : Char}
    {rest : List Char} (h : matchAt (c :: rest) = none) :
    scanStep go (c :: rest) true = go rest (c = '\n') := by
  rw [scanStep_cons, if_pos rfl, h]

theorem scanStep_cons_false {go : List Char → Bool → List Flag} {c : Char}
    {rest : List Char} :
    scanStep go (c :: rest) false = go rest (c = '\n') := by
  rw [scanStep_cons, if_neg (by simp)]

theorem scanF_congr : ∀ (n : Nat) {m : Nat} {s : List Char} {b : Bool},
    s.length ≤ n → s.length ≤ m → scanF n s b = scanF m s b := by
  intro n
  induction n with
  | zero =>
    intro m s b hn _
    have hs : s = [] := List.length_eq_zero.mp (Nat.le_zero.mp hn)
    subst hs
    rw [scanF_nil, scanF_nil]
  | succ n ih =>
    intro m s b hn hm
    cases s with
    | nil => rw [scanF_nil, scanF_nil]
    | cons c rest =>
      have hm1 : 1 ≤ m := le_trans (by simp) hm
      obtain ⟨m', rfl⟩ : ∃ m', m = m' + 1 := ⟨m - 1, by omega⟩
      simp only [List.length_cons] at hn hm
      cases b with
      | true =>
        cases hma : matchAt (c :: rest) with
        | some p =>
          obtain ⟨cap, r⟩ := p
          have hr : r.length < rest.length + 1 := by
            have := matchAt_rest_lt hma
            simpa using this
          rw [scanF_succ, scanF_succ, scanStep_cons_start_some hma,
              scanStep_cons_start_some hma, ih (m := m') (by omega) (by omega)]
        | none =>
          rw [scanF_succ, scanF_succ, scanStep_cons_start_none hma,
              scanStep_cons_start_none hma]
          exact ih (by omega) (by omega)
      | false =>
        rw [scanF_succ, scanF_succ, scanStep_cons_false, scanStep_cons_false]
        exact ih (by omega) (by omega)

theorem scanF_skip : ∀ (M : List Char) {u : List Char} {n : Nat}, '\n' ∉ M →
    M.length + (u.length + 1) ≤ n →
    scanF n (M ++ '\n' :: u) false = scanF (u.length + 1) u true := by
  intro M
  induction M with
  | nil =>
    intro u n _ hlen
    simp only [List.nil_append, List.length_nil] at hlen ⊢
    obtain ⟨n', rfl⟩ : ∃ n', n = n' + 1 := ⟨n - 1, by omega⟩
    rw [scanF_succ, scanStep_cons, if_neg (by simp)]
    rw [show (decide ('\n' = '\n')) = true from by decide]
    exact scanF_congr n' (by omega) (by omega)
  | cons x M' ih =>
    intro u n hnl hlen
    have hx : x ≠ '\n' := fun hEq => hnl (hEq ▸ List.mem_cons_self _ _)
    have hM' : '\n' ∉ M' := fun hm => hnl (List.mem_cons_of_mem _ hm)
    simp only [List.length_cons] at hlen
    obtain ⟨n', rfl⟩ : ∃ n', n = n' + 1 := ⟨n - 1, by omega⟩
    rw [List.cons_append, scanF_succ, scanStep_cons, if_neg (by simp)]
    rw [show (decide (x = '\n')) = false from by simp [hx]]
    exact ih hM' (by omega)

theorem scanF_noNL_false : ∀ (M : List Char) {n : Nat}, '\n' ∉ M →
    scanF n M false = [] := by
  intro M
  induction M with
  | nil => intro n _; rw [scanF_nil]
  | cons x M' ih =>
    intro n hnl
    have hx : x ≠ '\n' := fun hEq => hnl (hEq ▸ List.mem_cons_self _ _)
    cases n with
    | zero => rfl
    | succ n' =>
      rw [scanF_succ, scanStep_cons, if_neg (by simp)]
      rw [show (decide (x = '\n')) = false from by simp [hx]]
      exact ih (fun hm => hnl (List.mem_cons_of_mem _ hm))

/-! ### The scan processes good texts line by line -/

theorem band_eq_true {a b : Bool} (h : (a && b) = true) : a = true ∧ b = true := by
  cases a <;> cases b <;> simp_all

theorem goodLine_parts {L : List Char} (h : goodLine L = true) :
    L.head? ≠ some '-' ∧ badCore (L.dropWhile isWS) = false := by
  unfold goodLine at h
  rcases band_eq_true h with ⟨h1, h2⟩
  constructor
  · exact bne_iff_ne.mp h1
  · cases hb : badCore (L.dropWhile isWS) with
    | false => rfl
    | true => rw [hb] at h2; simp at h2

theorem good_head_not_dash {T : List Char} (hgood : (splitLines T).all goodLine = true) :
    ∀ c s', T = c :: s' → isWS c = true ∨ c ≠ '-' := by
  intro c s' hTeq
  subst hTeq
  by_cases hcw : isWS c = true
  · exact Or.inl hcw
  · right
    intro hEq
    subst hEq
    have hhead := splitLines_head ('-' :: s')
    rw [List.takeWhile_cons_of_pos (by simp [show ¬ (('-' : Char) = '\n') from by decide])]
      at hhead
    obtain ⟨l0, ls, hT⟩ := List.exists_cons_of_ne_nil (splitLines_ne_nil ('-' :: s'))
    rw [hT] at hhead hgood
    simp only [List.head?_cons, Option.some.injEq] at hhead
    rw [List.all_cons] at hgood
    have hgl : goodLine l0 = true := (band_eq_true hgood).1
    have hne := (goodLine_parts hgl).1
    rw [hhead] at hne
    simp at hne

theorem scanF_walk_line {L T : List Char} {n : Nat} (hnlL : '\n' ∉ L)
    (hma : matchAt (L ++ '\n' :: T) = none)
    (hn : (L ++ '\n' :: T).length ≤ n) :
    scanF n (L ++ '\n' :: T) true = scanF (T.length + 1) T true := by
  cases L with
  | nil =>
    simp only [List.nil_append] at hma ⊢
    simp only [List.nil_append, List.length_cons] at hn
    obtain ⟨n', rfl⟩ : ∃ n', n = n' + 1 := ⟨n - 1, by omega⟩
    rw [scanF_succ, scanStep_cons_start_none hma]
    rw [show (decide ('\n' = '\n')) = true from by decide]
    exact scanF_congr n' (by omega) (by omega)
  | cons x L' =>
    have hx : x ≠ '\n' := fun hEq => hnlL (hEq ▸ List.mem_cons_self _ _)
    have hL' : '\n' ∉ L' := fun hm => hnlL (List.mem_cons_of_mem _ hm)
    simp only [List.cons_append] at hma ⊢
    simp only [List.cons_append, List.length_cons, List.length_append,
      List.length_cons] at hn
    obtain ⟨n', rfl⟩ : ∃ n', n = n' + 1 := ⟨n - 1, by omega⟩
    rw [scanF_succ, scanStep_cons_start_none hma]
    rw [show (decide (x = '\n')) = false from by simp [hx]]
    exact scanF_skip L' hL' (by omega)

/-- On a text whose every line is `goodLine`, the scan yields exactly the
per-line extraction, line by line. -/
theorem scanF_perline : ∀ (N : Nat) (s : List Char), s.length ≤ N →
    goodLines s = true → ∀ {n : Nat}, s.length ≤ n →
    scanF n s true = (splitLines s).filterMap codeLineFlag := by
  intro N
  induction N with
  | zero =>
    intro s hN _ n _
    have hs : s = [] := List.length_eq_zero.mp (Nat.le_zero.mp hN)
    subst hs
    rw [scanF_nil]
    rfl
  | succ N ih =>
    intro s hN hgood n hn
    cases hsplit : s.dropWhile (fun c => ¬ c = '\n') with
    | nil =>
      have hs_eq : s.takeWhile (fun c => ¬ c = '\n') = s := by
        have h2 := List.takeWhile_append_dropWhile (fun c => ¬ c = '\n') s
        rw [hsplit, List.append_nil] at h2
        exact h2
      have hnl : '\n' ∉ s := by
        intro hm
        have h2 := List.mem_takeWhile_imp (p := fun c => ¬ c = '\n') (hs_eq.symm ▸ hm)
        simp at h2
      cases s with
      | nil => rw [scanF_nil]; rfl
      | cons c rest =>
        simp only [List.length_cons] at hn
        obtain ⟨n', rfl⟩ : ∃ n', n = n' + 1 := ⟨n - 1, by omega⟩
        rw [splitLines_noNL hnl]
        cases hma : matchAt (c :: rest) with
        | some p =>
          obtain ⟨cap, r⟩ := p
          have hr : r = [] := matchAt_noNL_rest hnl hma
          subst hr
          rw [scanF_succ, scanStep_cons_start_some hma]
          have hlf : codeLineFlag (c :: rest) = acceptCap cap := by
            unfold codeLineFlag
            rw [hma]
          rw [List.filterMap_cons, hlf, scanF_nil]
          cases acceptCap cap <;> rfl
        | none =>
          have hlf : codeLineFlag (c :: rest) = none := by
            unfold codeLineFlag
            rw [hma]
          rw [scanF_succ, scanStep_cons_start_none hma]
          have hcnl : c ≠ '\n' := fun hEq => hnl (hEq ▸ List.mem_cons_self _ _)
          rw [show (decide (c = '\n')) = false from by simp [hcnl]]
          rw [scanF_noNL_false rest (fun hm => hnl (List.mem_cons_of_mem _ hm))]
          rw [List.filterMap_cons, hlf]
          rfl
    | cons nl0 T =>
      have hnlchar : nl0 = '\n' := by
        have h2 := head?_dropWhile_not (fun c => ¬ c = '\n') s (by rw [hsplit]; rfl)
        simpa using h2
      subst hnlchar
      have hnlL : '\n' ∉ s.takeWhile (fun c => ¬ c = '\n') := by
        intro hm
        have h2 := List.mem_takeWhile_imp hm
        simp at h2
      have hs_eq : s.takeWhile (fun c => ¬ c = '\n') ++ '\n' :: T = s := by
        rw [← hsplit]
        exact List.takeWhile_append_dropWhile _ s
      generalize hLdef : s.takeWhile (fun c => ¬ c = '\n') = L at hnlL hs_eq
      subst hs_eq
      have hsplitL := splitLines_append T hnlL
      rw [hsplitL]
      have hgood2 : goodLine L = true ∧ (splitLines T).all goodLine = true := by
        unfold goodLines at hgood
        rw [hsplitL, List.all_cons] at hgood
        exact band_eq_true hgood
      have hTN : T.length ≤ N := by
        rw [List.length_append, List.length_cons] at hN
        omega
      have hTn : T.length + 1 ≤ n := by
        rw [List.length_append, List.length_cons] at hn
        omega
      have ihT : scanF (T.length + 1) T true = (splitLines T).filterMap codeLineFlag :=
        ih T hTN hgood2.2 (by omega)
      by_cases hLws : L.all isWS = true
      · rw [List.filterMap_cons, codeLineFlag_allWS hLws]
        show scanF n (L ++ '\n' :: T) true = (splitLines T).filterMap codeLineFlag
        rw [← ihT]
        have hskip : matchAt (L ++ '\n' :: T) = matchAt T := by
          have h2 := matchAt_ws_skip (W := L ++ ['\n'])
            (by rw [List.all_append]
                simp [hLws, show isWS '\n' = true from by decide])
            (by simp) T (good_head_not_dash hgood2.2)
          simpa [List.append_assoc] using h2
        cases hmaT : matchAt T with
        | some p =>
          obtain ⟨cap, r⟩ := p
          have hTne : T ≠ [] := by
            rintro rfl
            rw [show matchAt ([] : List Char) = none from rfl] at hmaT
            cases hmaT
          obtain ⟨t0, T', rfl⟩ := List.exists_cons_of_ne_nil hTne
          have hrlt : r.length < T'.length + 1 := by
            have h2 := matchAt_rest_lt hmaT
            simpa using h2
          obtain ⟨n', rfl⟩ : ∃ n', n = n' + 1 := ⟨n - 1, by omega⟩
          have hrec : scanF n' r false = scanF ((t0 :: T').length) r false := by
            refine scanF_congr n' ?_ ?_
            · simp only [List.length_append, List.length_cons] at hn
              omega
            · simp only [List.length_cons]
              omega
          cases L with
          | nil =>
            simp only [List.nil_append] at hskip ⊢
            rw [scanF_succ, scanStep_cons_start_some (hskip.trans hmaT),
                scanF_succ ((t0 :: T').length), scanStep_cons_start_some hmaT, hrec]
          | cons x L' =>
            simp only [List.cons_append] at hskip ⊢
            rw [scanF_succ, scanStep_cons_start_some (hskip.trans hmaT),
                scanF_succ ((t0 :: T').length), scanStep_cons_start_some hmaT, hrec]
        | none =>
          exact scanF_walk_line hnlL (hskip.trans hmaT) hn
      · have hLall : L.all isWS = false := Bool.of_not_eq_true hLws
        have hLne : L ≠ [] := by rintro rfl; simp at hLall
        have hbadL : badCore (L.dropWhile isWS) = false := (goodLine_parts hgood2.1).2
        have happ := matchAt_append T hnlL hLall hbadL
        rw [List.filterMap_cons]
        cases hmaL : matchAt L with
        | some p =>
          obtain ⟨cap, rL⟩ := p
          have hrL : rL = [] := matchAt_noNL_rest hnlL hmaL
          subst hrL
          rw [hmaL] at happ
          have hlf : codeLineFlag L = acceptCap cap := by
            unfold codeLineFlag
            rw [hmaL]
          rw [hlf]
          obtain ⟨x, L', rfl⟩ := List.exists_cons_of_ne_nil hLne
          simp only [List.cons_append] at happ ⊢
          simp only [List.cons_append, List.length_cons, List.length_append,
            List.length_cons] at hn
          obtain ⟨n', rfl⟩ : ∃ n', n = n' + 1 := ⟨n - 1, by omega⟩
          rw [scanF_succ, scanStep_cons_start_some happ]
          have hstep : scanF n' ('\n' :: T) false = scanF (T.length + 1) T true := by
            obtain ⟨n'', rfl⟩ : ∃ n'', n' = n'' + 1 := ⟨n' - 1, by omega⟩
            rw [scanF_succ, scanStep_cons_false]
            rw [show (decide ('\n' = '\n')) = true from by decide]
            exact scanF_congr n'' (by omega) (by omega)
          rw [hstep, ihT]
          cases acceptCap cap <;> rfl
        | none =>
          rw [hmaL] at happ
          have hlf : codeLineFlag L = none := by
            unfold codeLineFlag
            rw [hmaL]
          rw [hlf]
          rw [scanF_walk_line hnlL (by simpa using happ) hn]
          exact ihT

/-! ### The spec's grammar versus the code's regex, line by line -/

theorem takeWhile_congr_of_mem {α : Type} {p q : α → Bool} {l : List α}
    (h : ∀ x ∈ l, p x = q x) : l.takeWhile p = l.takeWhile q := by
  induction l with
  | nil => rfl
  | cons x xs ih =>
    rw [List.takeWhile_cons, List.takeWhile_cons, h x (List.mem_cons_self _ _)]
    split
    · rw [ih (fun y hy => h y (List.mem_cons_of_mem _ hy))]
    · rfl

theorem dropWhile_congr_of_mem {α : Type} {p q : α → Bool} {l : List α}
    (h : ∀ x ∈ l, p x = q x) : l.dropWhile p = l.dropWhile q := by
  induction l with
  | nil => rfl
  | cons x xs ih =>
    rw [List.dropWhile_cons, List.dropWhile_cons, h x (List.mem_cons_self _ _)]
    split
    · exact ih (fun y hy => h y (List.mem_cons_of_mem _ hy))
    · rfl

theorem filterMap_congr_of_mem {α β : Type} {f g : α → Option β} {l : List α}
    (h : ∀ x ∈ l, f x = g x) : l.filterMap f = l.filterMap g := by
  induction l with
  | nil => rfl
  | cons x xs ih =>
    rw [List.filterMap_cons, List.filterMap_cons, h x (List.mem_cons_self _ _)]
    cases g x with
    | none => exact ih (fun y hy => h y (List.mem_cons_of_mem _ hy))
    | some b => rw [ih (fun y hy => h y (List.mem_cons_of_mem _ hy))]

theorem mem_splitLines_noNL {s : List Char} :
    ∀ {L : List Char}, L ∈ splitLines s → '\n' ∉ L := by
  induction s with
  | nil =>
    intro L hL
    rw [splitLines_nil] at hL
    rw [List.mem_singleton.mp hL]
    simp
  | cons c rest ih =>
    intro L hL
    obtain ⟨l0, ls, hr⟩ := List.exists_cons_of_ne_nil (splitLines_ne_nil rest)
    rw [splitLines_cons, hr] at hL
    have hL' : L ∈ (if c = '\n' then ([] : List Char) :: l0 :: ls else (c :: l0) :: ls) := hL
    by_cases hc : c = '\n'
    · rw [if_pos hc] at hL'
      rcases List.mem_cons.mp hL' with rfl | hL'
      · simp
      · exact ih (by rw [hr]; exact hL')
    · rw [if_neg hc] at hL'
      rcases List.mem_cons.mp hL' with rfl | hL'
      · intro hm
        rcases List.mem_cons.mp hm with hm | hm
        · exact hc hm.symm
        · exact ih (by rw [hr]; exact List.mem_cons_self l0 ls) hm
      · exact ih (by rw [hr]; exact List.mem_cons_of_mem l0 hL')

theorem mem_splitLines_subset {s : List Char} :
    ∀ {L : List Char}, L ∈ splitLines s → ∀ x ∈ L, x ∈ s := by
  induction s with
  | nil =>
    intro L hL
    rw [splitLines_nil] at hL
    rw [List.mem_singleton.mp hL]
    intro x hx
    simp at hx
  | cons c rest ih =>
    intro L hL
    obtain ⟨l0, ls, hr⟩ := List.exists_cons_of_ne_nil (splitLines_ne_nil rest)
    rw [splitLines_cons, hr] at hL
    have hL' : L ∈ (if c = '\n' then ([] : List Char) :: l0 :: ls else (c :: l0) :: ls) := hL
    by_cases hc : c = '\n'
    · rw [if_pos hc] at hL'
      rcases List.mem_cons.mp hL' with rfl | hL'
      · intro x hx
        simp at hx
      · intro x hx
        exact List.mem_cons_of_mem c (ih (by rw [hr]; exact hL') x hx)
    · rw [if_neg hc] at hL'
      rcases List.mem_cons.mp hL' with rfl | hL'
      · intro x hx
        rcases List.mem_cons.mp hx with rfl | hx
        · exact List.mem_cons_self _ _
        · exact List.mem_cons_of_mem c
            (ih (by rw [hr]; exact List.mem_cons_self l0 ls) x hx)
      · intro x hx
        exact List.mem_cons_of_mem c
          (ih (by rw [hr]; exact List.mem_cons_of_mem l0 hL') x hx)

theorem isWS_eq_space {x : Char} (h : isWS x = true → x = ' ') :
    isWS x = decide (x = ' ') := by
  cases hx : isWS x with
  | true =>
    have hxe := h hx
    subst hxe
    decide
  | false =>
    have hne : ¬ x = ' ' := by
      intro he
      subst he
      exact absurd hx (by decide)
    exact (decide_eq_false hne).symm

theorem specTail_eq_matchTail {u : List Char} (hnl : '\n' ∉ u)
    (hu : u.all isWS = false ∨ u = []) :
    specTail u = Option.map Prod.fst (matchTail u) := by
  rcases hu with hu | rfl
  · by_cases hw : (u.takeWhile isWS).isEmpty = true
    · rw [matchTail_eq_none hw]
      unfold specTail
      rw [if_pos hw]
      rfl
    · have hw' : (u.takeWhile isWS).isEmpty = false := Bool.of_not_eq_true hw
      obtain ⟨d0, d', hd⟩ := List.exists_cons_of_ne_nil (dropWhile_not_all_ne_nil hu)
      rw [matchTail_eq_main hw' hd]
      unfold specTail
      rw [if_neg hw, hd]
      have hall : (d0 :: d').all (fun c => ¬ c = '\n') = true := by
        rw [List.all_eq_true]
        intro y hy
        have hyu : y ∈ u :=
          (List.dropWhile_suffix isWS).mem (show y ∈ u.dropWhile isWS by rw [hd]; exact hy)
        simp only [decide_eq_true_eq]
        intro hEq
        exact hnl (hEq ▸ hyu)
      rw [takeWhile_all_eq hall]
      rfl
  · rfl

theorem specCore_nil : specCore [] = none := rfl

theorem specCore_one (c : Char) : specCore [c] = none := rfl

theorem specCore_cons (c0 c : Char) (v' : List Char) :
    specCore (c0 :: c :: v') =
      if c0 = '-' then
        if isShortTokenChar c then
          match specGroup c v' with
          | some cap => some cap
          | none => (specTail v').map (fun d => ⟨some ['-', c], none, d⟩)
        else if c = '-' then
          if (v'.takeWhile isLongTokenChar).isEmpty then none
          else
            (specTail (v'.dropWhile isLongTokenChar)).map
              (fun d => ⟨none, some ('-' :: '-' :: v'.takeWhile isLongTokenChar), d⟩)
        else none
      else none := rfl

theorem specGroup_eq_none_empty {c : Char} {v' : List Char}
    (h : ((stripComma v').takeWhile (fun x => x = ' ')).isEmpty = true) :
    specGroup c v' = none := by
  unfold specGroup
  rw [if_pos h]

theorem specGroup_eq_shape {c : Char} {v' : List Char} {a b : Char} {v3 : List Char}
    (hemp : ((stripComma v').takeWhile (fun x => x = ' ')).isEmpty = false)
    (h : (stripComma v').dropWhile (fun x => x = ' ') = a :: b :: v3) :
    specGroup c v' =
      if a = '-' ∧ b = '-' then
        if (v3.takeWhile isLongTokenChar).isEmpty then none
        else
          (specTail (v3.dropWhile isLongTokenChar)).map
            (fun d =>
              ⟨some ['-', c], some ('-' :: '-' :: v3.takeWhile isLongTokenChar), d⟩)
      else none := by
  unfold specGroup
  rw [if_neg (by simp [hemp]), h]

theorem specGroup_eq_none_one {c : Char} {v' : List Char} {a : Char}
    (hemp : ((stripComma v').takeWhile (fun x => x = ' ')).isEmpty = false)
    (h : (stripComma v').dropWhile (fun x => x = ' ') = [a]) :
    specGroup c v' = none := by
  unfold specGroup
  rw [if_neg (by simp [hemp]), h]

theorem specGroup_eq_groupAttempt {c : Char} {v' : List Char} (hnl : '\n' ∉ v')
    (hsp : ∀ x ∈ v', isWS x = true → x = ' ')
    (hv1 : (stripComma v').all isWS = false)
    (hshape : ∀ a b v3, (stripComma v').dropWhile isWS = a :: b :: v3 → a = '-' → b = '-' →
        (v3.takeWhile isLongTokenChar).isEmpty = true ∨
          (v3.dropWhile isLongTokenChar).all isWS = false) :
    specGroup c v' = Option.map Prod.fst (groupAttempt c v') := by
  have hspc : ∀ x ∈ stripComma v', isWS x = true → x = ' ' := fun x hx =>
    hsp x ((stripComma_suffix v').mem hx)
  have htake : (stripComma v').takeWhile (fun x => x = ' ')
      = (stripComma v').takeWhile isWS :=
    takeWhile_congr_of_mem (fun x hx => (isWS_eq_space (hspc x hx)).symm)
  have hdrop : (stripComma v').dropWhile (fun x => x = ' ')
      = (stripComma v').dropWhile isWS :=
    dropWhile_congr_of_mem (fun x hx => (isWS_eq_space (hspc x hx)).symm)
  by_cases hemp : ((stripComma v').takeWhile isWS).isEmpty = true
  · rw [groupAttempt_eq_none_empty hemp,
        specGroup_eq_none_empty (by rw [htake]; exact hemp)]
    rfl
  · have hemp1 : ((stripComma v').takeWhile isWS).isEmpty = false :=
      Bool.of_not_eq_true hemp
    have hemps : ((stripComma v').takeWhile (fun x => x = ' ')).isEmpty = false := by
      rw [htake]; exact hemp1
    obtain ⟨a, v2t, hv2⟩ := List.exists_cons_of_ne_nil (dropWhile_not_all_ne_nil hv1)
    have hv2s : (stripComma v').dropWhile (fun x => x = ' ') = a :: v2t := by
      rw [hdrop]; exact hv2
    cases v2t with
    | nil =>
      rw [groupAttempt_eq_none_one hemp1 hv2, specGroup_eq_none_one hemps hv2s]
      rfl
    | cons b v3 =>
      rw [groupAttempt_eq_shape hemp1 hv2, specGroup_eq_shape hemps hv2s]
      by_cases hab : a = '-' ∧ b = '-'
      · rw [if_pos hab, if_pos hab]
        by_cases hde : (v3.takeWhile isLongTokenChar).isEmpty = true
        · rw [if_pos hde, if_pos hde]
          rfl
        · have hde1 : (v3.takeWhile isLongTokenChar).isEmpty = false :=
            Bool.of_not_eq_true hde
          rw [if_neg hde, if_neg hde]
          have hall : (v3.dropWhile isLongTokenChar).all isWS = false := by
            rcases hshape a b v3 hv2 hab.1 hab.2 with h1 | h1
            · rw [h1] at hde1; cases hde1
            · exact h1
          have hv3nl : '\n' ∉ v3 := by
            intro hm
            apply hnl
            have h1 : '\n' ∈ a :: b :: v3 := by simp [hm]
            rw [← hv2] at h1
            exact (stripComma_suffix v').mem ((List.dropWhile_suffix isWS).mem h1)
          rw [specTail_eq_matchTail
                (fun hm => hv3nl ((List.dropWhile_suffix _).mem hm)) (Or.inl hall)]
          cases matchTail (v3.dropWhile isLongTokenChar) <;> rfl
      · rw [if_neg hab, if_neg hab]
        rfl

theorem specCore_eq_matchCore {v : List Char} (hnl : '\n' ∉ v)
    (hsp : ∀ x ∈ v, isWS x = true → x = ' ')
    (hbad : badCore v = false) :
    specCore v = Option.map Prod.fst (matchCore v) := by
  cases v with
  | nil => rfl
  | cons c0 v0 =>
    cases v0 with
    | nil => rfl
    | cons c v' =>
      have hnl' : '\n' ∉ v' := fun hm =>
        hnl (List.mem_cons_of_mem _ (List.mem_cons_of_mem _ hm))
      have hsp' : ∀ x ∈ v', isWS x = true → x = ' ' := fun x hx =>
        hsp x (List.mem_cons_of_mem _ (List.mem_cons_of_mem _ hx))
      rw [specCore_cons, matchCore_cons]
      by_cases hc0 : c0 = '-'
      case neg =>
        rw [if_neg hc0, if_neg hc0]
        rfl
      case pos =>
        subst hc0
        rw [if_pos rfl, if_pos rfl]
        rw [badCore_cons, if_pos rfl] at hbad
        by_cases hsc : isShortTokenChar c = true
        · rw [if_pos hsc, if_pos hsc]
          rw [if_pos hsc] at hbad
          have hv1 : (stripComma v').all isWS = false := by
            by_cases h1 : (stripComma v').all isWS = true
            · rw [if_pos h1] at hbad; cases hbad
            · exact Bool.of_not_eq_true h1
          rw [if_neg (by simp [hv1])] at hbad
          have hshape : ∀ a b v3, (stripComma v').dropWhile isWS = a :: b :: v3 →
              a = '-' → b = '-' →
              (v3.takeWhile isLongTokenChar).isEmpty = true ∨
                (v3.dropWhile isLongTokenChar).all isWS = false := by
            intro a b v3 heq ha hb
            rw [heq] at hbad
            have hbad2 : (if a = '-' ∧ b = '-' then
                !(v3.takeWhile isLongTokenChar).isEmpty
                  && (v3.dropWhile isLongTokenChar).all isWS
              else false) = false := hbad
            rw [if_pos ⟨ha, hb⟩] at hbad2
            by_cases hde : (v3.takeWhile isLongTokenChar).isEmpty = true
            · exact Or.inl hde
            · right
              rw [Bool.of_not_eq_true hde] at hbad2
              simpa using hbad2
          rw [specGroup_eq_groupAttempt hnl' hsp' hv1 hshape]
          cases hga : groupAttempt c v' with
          | some res => rfl
          | none =>
            rw [specTail_eq_matchTail hnl' (Or.inl (all_false_of_stripComma hv1))]
            cases matchTail v' <;> rfl
        · rw [if_neg hsc, if_neg hsc]
          rw [if_neg hsc] at hbad
          by_cases hld : c = '-'
          · rw [if_pos hld, if_pos hld]
            rw [if_pos hld] at hbad
            unfold longOnly
            by_cases hde : (v'.takeWhile isLongTokenChar).isEmpty = true
            · rw [if_pos hde, if_pos hde]
              rfl
            · rw [if_neg hde, if_neg hde]
              have hall : (v'.dropWhile isLongTokenChar).all isWS = false := by
                rw [Bool.of_not_eq_true hde] at hbad
                simpa using hbad
              rw [specTail_eq_matchTail
                    (fun hm => hnl' ((List.dropWhile_suffix _).mem hm)) (Or.inl hall)]
              cases matchTail (v'.dropWhile isLongTokenChar) <;> rfl
          · rw [if_neg hld, if_neg hld]
            rfl

theorem specLineFlag_eq_codeLineFlag {l : List Char} (hnl : '\n' ∉ l)
    (hsp : ∀ x ∈ l, isWS x = true → x = ' ')
    (hbad : badCore (l.dropWhile isWS) = false) :
    specLineFlag l = codeLineFlag l := by
  unfold specLineFlag codeLineFlag matchAt
  by_cases hw : (l.takeWhile isWS).isEmpty = true
  · rw [if_pos hw, if_pos hw]
  · rw [if_neg hw, if_neg hw]
    have hnl' : '\n' ∉ l.dropWhile isWS := fun hm =>
      hnl ((List.dropWhile_suffix _).mem hm)
    have hsp' : ∀ x ∈ l.dropWhile isWS, isWS x = true → x = ' ' := fun x hx =>
      hsp x ((List.dropWhile_suffix _).mem hx)
    rw [specCore_eq_matchCore hnl' hsp' hbad]
    cases matchCore (l.dropWhile isWS) with
    | none => rfl
    | some p =>
      obtain ⟨cap, r⟩ := p
      rfl

theorem plainSpaces_line {s L : List Char} (hp : plainSpaces s = true)
    (hL : L ∈ splitLines s) : ∀ x ∈ L, isWS x = true → x = ' ' := by
  unfold plainSpaces at hp
  intro x hx hwx
  have hxs : x ∈ s := mem_splitLines_subset hL x hx
  have hx1 := List.all_eq_true.mp hp x hxs
  rw [hwx] at hx1
  have hnl : x ≠ '\n' := fun hEq => mem_splitLines_noNL hL (hEq ▸ hx)
  have hx2 : x = ' ' ∨ x = '\n' := by simpa using hx1
  rcases hx2 with h1 | h1
  · exact h1
  · exact absurd h1 hnl

/-- C4 (counterexample): the per-line reading of the flag-line grammar does
not match the code.  The regex's `\s+` also matches newlines, so on
`"  -v\n  --out  file name"` the scanner joins the description-less `-v`
line with the following long-option line into one flag, while the grammar
rejects the first line and accepts the second alone; and the regex's `\s+`
between the short and the long token also accepts a tab where the grammar's
`,? +` demands spaces, as on `"  -v,\t--out  ok"`. -/
theorem perline_counterexample :
    parseFlags "  -v\n  --out  file name"
      = [⟨some "-v", some "--out", "file name", false⟩] ∧
    specPerLineFlags "  -v\n  --out  file name"
      = [⟨none, some "--out", "file name", false⟩] ∧
    parseFlags "  -v\n  --out  file name"
      ≠ specPerLineFlags "  -v\n  --out  file name" ∧
    parseFlags "  -v,\t--out  ok" = [⟨some "-v", some "--out", "ok", false⟩] ∧
    specPerLineFlags "  -v,\t--out  ok" = [] := by
  refine ⟨by decide, by decide, by decide, by decide, by decide⟩

/-- C4 (amended): for every raw text whose whitespace characters are plain
spaces and newlines (`plainSpaces`), in which no line begins with a dash in
column 0, and in which no line is a description-less token line
(`goodLines`), extraction coincides with the spec's per-line flag-line
grammar — each line yields a flag exactly when it matches the grammar, in
line order. -/
theorem perline_of_good (text : String) (hg : goodLines text.toList = true)
    (hp : plainSpaces text.toList = true) :
    parseFlags text = specPerLineFlags text := by
  unfold parseFlags specPerLineFlags
  rw [scanF_perline text.toList.length text.toList le_rfl hg (by omega)]
  refine filterMap_congr_of_mem ?_
  intro L hL
  have hnl : '\n' ∉ L := mem_splitLines_noNL hL
  have hsp := plainSpaces_line hp hL
  have hgL : goodLine L = true := by
    unfold goodLines at hg
    exact List.all_eq_true.mp hg L hL
  exact (specLineFlag_eq_codeLineFlag hnl hsp (goodLine_parts hgL).2).symm

theorem perline_of_good_witness :
    goodLines demoHelpText.toList = true ∧
    plainSpaces demoHelpText.toList = true ∧
      parseFlags demoHelpText = specPerLineFlags demoHelpText :=
  ⟨by decide, by decide, perline_of_good demoHelpText (by decide) (by decide)⟩

theorem flags_have_token_witness :
    (⟨some "-v", some "--verbose", "Enable verbose output", false⟩ : Flag).short.isSome = true ∨
      (⟨some "-v", some "--verbose", "Enable verbose output", false⟩ : Flag).long.isSome = true :=
  flags_have_token demoHelpText _ (by decide)

end ManHelp
